import Mathlib

/-!
# Verification of the spatial association & record assembly engine

Shallow embedding, in Lean 4, of the core record-extraction code of this
repository:

* `server/paddle_ocr_extractor.py` — field classifiers (`is_price`,
  `is_product_code`, `extract_colors`, `extract_materials`,
  `identify_category`), the line-band grouper (`group_text_blocks`), the
  title-anchored clustering (`cluster_blocks_into_products`), the line-based
  extraction (`extract_products_by_lines`), the record assembler
  (`extract_product_from_blocks`) and the per-image driver
  (`process_image_for_products`).
* `server/python-scripts/excel_fixed_columns.py` — `format_price` and
  `associate_images_with_products`.
* `server/python-scripts/extract_image_for_product.py` — `find_image_near_cell`.

Modelling conventions:

* Python strings are Lean `String`s; character-level operations are modelled
  over `List Char`.  Case conversion (`str.lower`, `str.upper`,
  `str.capitalize`) is modelled with Lean's ASCII `Char.toLower`/`Char.toUpper`;
  all inputs used to settle claims are such that this coincides with Python's
  Unicode case folding.
* Python numbers are modelled exactly: `float` parsing of the digit strings
  that occur in the source's regex groups is modelled as exact rational
  parsing, and `int(x * 100)` as the rational floor.  IEEE-754 double rounding
  in the source can differ from the exact value by one unit in the last place
  on some inputs; every concrete theorem below is stated at inputs on which
  the exact model and the double-precision computation agree.
* OCR bounding-box centres and areas are modelled as integers (the source
  holds floats); none of the verified properties depends on fractional
  coordinates.
* I/O, logging, base64 encoding of page images, and the OCR engine itself are
  outside the model (they are external collaborators in the spec's sense).
-/

namespace Alda

/-! ## Character classes and basic string utilities -/

/-- Python's `\s` / `str.strip` whitespace, restricted to ASCII. -/
def isPyWS (c : Char) : Bool :=
  c = ' ' || c = '\t' || c = '\n' || c = '\x0d' || c = '\x0b' || c = '\x0c'

/-- Characters matched by the regex class `[\d.,]`. -/
def isNumClass (c : Char) : Bool :=
  c.isDigit || c = '.' || c = ','

/-- `str.strip()` on a character list. -/
def pyStripL (cs : List Char) : List Char :=
  ((cs.dropWhile isPyWS).reverse.dropWhile isPyWS).reverse

/-- `str.strip()`. -/
def pyStrip (s : String) : String :=
  String.mk (pyStripL s.data)

/-- `str.lower()` (ASCII). -/
def pyLower (s : String) : String :=
  String.mk (s.data.map Char.toLower)

/-- `str.capitalize()`: first character upper-cased, the rest lower-cased. -/
def pyCapitalize (s : String) : String :=
  match s.data with
  | [] => ""
  | c :: rest => String.mk (c.toUpper :: rest.map Char.toLower)

/-- Python's substring containment `needle in haystack`. -/
def pyContains (haystack needle : String) : Bool :=
  decide (needle.data <:+: haystack.data)

/-! ## Lexicons (constants of `paddle_ocr_extractor.py`) -/

/-- `COLOR_LIST` from `paddle_ocr_extractor.py`. -/
def COLOR_LIST : List String :=
  ["preto", "branco", "azul", "vermelho", "verde", "amarelo", "laranja",
   "roxo", "rosa", "marrom", "cinza", "bege", "dourado", "prateado", "cromado",
   "transparente", "natural", "cerejeira", "tabaco", "nogueira", "mogno",
   "carvalho", "imbuia", "pinus", "jequitibá", "jatobá", "cedro",
   "café", "grafite", "chumbo", "fumê", "caramelo", "nude"]

/-- `MATERIAL_LIST` from `paddle_ocr_extractor.py`. -/
def MATERIAL_LIST : List String :=
  ["madeira", "mdf", "mdp", "melamínico", "melamina", "metalizado", "metal",
   "alumínio", "aluminio", "aço", "aco", "ferro", "vidro", "cristal", "espelho",
   "couro", "corino", "tecido", "linho", "veludo", "suede", "camurça", "camurca",
   "laca", "polipropileno", "pp", "abs", "plástico", "plastico", "pvc", "poliéster",
   "poliester", "polietileno", "mármore", "marmore", "granito", "quartzo",
   "cerâmica", "ceramica", "porcelanato", "laminado", "ráfia", "rafia", "palhinha",
   "junco", "vime", "bambu", "rattan", "inox", "cromado", "laqueado"]

/-- `CATEGORY_INDICATORS` from `paddle_ocr_extractor.py`, in source
(dictionary-insertion) order. -/
def CATEGORY_INDICATORS : List (String × String) :=
  [("cadeira", "Cadeira"), ("poltrona", "Poltrona"), ("sofá", "Sofá"),
   ("sofa", "Sofá"), ("mesa", "Mesa"), ("banqueta", "Banqueta"),
   ("banco", "Banqueta"), ("rack", "Rack"), ("painel", "Painel"),
   ("estante", "Estante"), ("guarda-roupa", "Guarda-roupa"),
   ("armário", "Armário"), ("armario", "Armário"), ("buffet", "Buffet"),
   ("aparador", "Aparador"), ("cômoda", "Cômoda"), ("comoda", "Cômoda"),
   ("escrivaninha", "Escrivaninha"), ("criado-mudo", "Criado-mudo"),
   ("cabeceira", "Cabeceira"), ("cama", "Cama")]

/-! ## Field classifiers -/

/-- `extract_colors` (`paddle_ocr_extractor.py`, lines 312–321): collects every
colour-lexicon entry that occurs as a substring of the lower-cased text,
capitalised, in lexicon order. -/
def extract_colors (text : String) : List String :=
  COLOR_LIST.foldl
    (fun acc color =>
      if pyContains (pyLower text) color then acc ++ [pyCapitalize color] else acc)
    []

/-- `extract_materials` (`paddle_ocr_extractor.py`, lines 324–333). -/
def extract_materials (text : String) : List String :=
  MATERIAL_LIST.foldl
    (fun acc material =>
      if pyContains (pyLower text) material then acc ++ [pyCapitalize material] else acc)
    []

/-- `identify_category` (`paddle_ocr_extractor.py`, lines 336–344): first
keyword of `CATEGORY_INDICATORS` occurring as a substring of the lower-cased
text, returning its canonical category. -/
def identify_category (text : String) : Option String :=
  CATEGORY_INDICATORS.findSome?
    (fun kv => if pyContains (pyLower text) kv.1 then some kv.2 else none)

/-! ## The price classifier `is_price`

`is_price` (`paddle_ocr_extractor.py`, lines 259–292):

1. `clean_text = text.strip().replace(" ", "")`;
2. `re.search(r'R\$\s*([\d.,]+)', clean_text)` — on success the group is
   stripped of `.`, `,` becomes `.`, is parsed with `float`, and
   `int(value * 100)` is returned (no plausibility bound on this branch);
3. otherwise `re.search(r'([\d,.]+)', clean_text)` — the same normalisation,
   but the value must lie in `[1, 100000]`;
4. otherwise `(False, None)`.
-/

/-- The leftmost-match search for `R\$\s*([\d.,]+)`: at each position the
pattern needs `R`, `$`, a (maximal) run of whitespace, then a non-empty
(maximal) run of `[\d.,]`; maximal runs are exact here because the character
classes of adjacent pattern pieces are disjoint. -/
def searchRSGroup : List Char → Option (List Char)
  | [] => none
  | [_] => none
  | c :: d :: rest =>
      if c = 'R' && d = '$' then
        let g := (rest.dropWhile isPyWS).takeWhile isNumClass
        if g.isEmpty then searchRSGroup (d :: rest) else some g
      else searchRSGroup (d :: rest)

/-- The leftmost-match search for `([\d,.]+)`: the match starts at the first
character of the class and is the maximal run from there. -/
def searchNumGroup : List Char → Option (List Char)
  | [] => none
  | c :: rest =>
      if isNumClass c then some ((c :: rest).takeWhile isNumClass)
      else searchNumGroup rest

/-- Numeric value of a digit list (most significant first). -/
def digitsVal (cs : List Char) : Nat :=
  cs.foldl (fun a c => a * 10 + (c.toNat - 48)) 0

/-- The exact value of a parsed decimal literal, kept as the unreduced
fraction `num / 10 ^ exp` (using `ℚ` here would be equivalent; the explicit
pair keeps every computation kernel-reducible). -/
structure DecFrac where
  num : Int
  exp : Nat
  deriving DecidableEq, Repr

/-- Exact model of Python `float()` on the strings produced by the source's
normalisation (digits and at most one `.`): `"5."`, `".5"`, `"5.5"`, `"5"`
parse; `"."`, `""`, `"1.2.3"` and anything with other characters raise. -/
def parsePyFloat (cs : List Char) : Option DecFrac :=
  let intPart := cs.takeWhile Char.isDigit
  let rest := cs.dropWhile Char.isDigit
  match rest with
  | [] => if intPart.isEmpty then none else some ⟨digitsVal intPart, 0⟩
  | '.' :: frac =>
      if frac.all Char.isDigit then
        if intPart.isEmpty && frac.isEmpty then none
        else some ⟨(digitsVal intPart : Int) * 10 ^ frac.length + digitsVal frac, frac.length⟩
      else none
  | _ => none

/-- The source's group normalisation: drop every `.`, then turn `,` into `.`. -/
def normalizeGroup (cs : List Char) : List Char :=
  (cs.filter (fun c => c ≠ '.')).map (fun c => if c = ',' then '.' else c)

/-- `clean_text = text.strip().replace(" ", "")`. -/
def cleanText (text : String) : List Char :=
  (pyStripL text.data).filter (fun c => c ≠ ' ')

/-- `int(value * 100)`: truncation toward zero, like Python's `int()`.  The
values reaching this point are non-negative, so truncation coincides with
floor division. -/
def toCents (v : DecFrac) : Int := (v.num * 100).fdiv (10 ^ v.exp)

/-- `1 <= value`, on the exact fraction. -/
def decFracGeOne (v : DecFrac) : Bool := decide ((10 : Int) ^ v.exp ≤ v.num)

/-- `value <= 100000`, on the exact fraction. -/
def decFracLe100000 (v : DecFrac) : Bool := decide (v.num ≤ 100000 * (10 : Int) ^ v.exp)

/-- `is_price` (`paddle_ocr_extractor.py`, lines 259–292). -/
def is_price (text : String) : Bool × Option Int :=
  let clean := cleanText text
  let fallback : Bool × Option Int :=
    match searchNumGroup clean with
    | some g =>
        match parsePyFloat (normalizeGroup g) with
        | some q =>
            if decFracGeOne q && decFracLe100000 q then (true, some (toCents q))
            else (false, none)
        | none => (false, none)
    | none => (false, none)
  match searchRSGroup clean with
  | some g =>
      match parsePyFloat (normalizeGroup g) with
      | some q => (true, some (toCents q))
      | none => fallback
  | none => fallback

/-! ## The code classifier `is_product_code` -/

/-- Payload class `[A-Z0-9\-\.]` of the code regexes (without `re.IGNORECASE`). -/
def isCodeClass (c : Char) : Bool :=
  c.isUpper || c.isDigit || c = '-' || c = '.'

/-- Payload class `[A-Z0-9\-\.]` under `re.IGNORECASE`. -/
def isCodeClassCI (c : Char) : Bool :=
  c.isAlpha || c.isDigit || c = '-' || c = '.'

/-- One attempt of `\d+\.\d+\.\d+\.\d+` anchored at the start of the list:
four non-empty digit runs separated by literal dots.  Maximal digit runs are
exact because a digit run cannot end where a `.` is required. -/
def dotsPatternAt (cs : List Char) : Bool :=
  let seg : List Char → Option (List Char) := fun l =>
    let d := l.takeWhile Char.isDigit
    if d.isEmpty then none else some (l.dropWhile Char.isDigit)
  let dot : List Char → Option (List Char) := fun l =>
    match l with
    | '.' :: r => some r
    | _ => none
  (do
    let r1 ← seg cs
    let r2 ← dot r1
    let r3 ← seg r2
    let r4 ← dot r3
    let r5 ← seg r4
    let r6 ← dot r5
    let _ ← seg r6
    pure ()).isSome

/-- `re.search(r'\d+\.\d+\.\d+\.\d+', text)`. -/
def searchDotsPattern : List Char → Bool
  | [] => false
  | c :: rest => dotsPatternAt (c :: rest) || searchDotsPattern rest

/-- Case-insensitive character comparison. -/
def ciEq (a b : Char) : Bool := a.toLower = b.toLower

/-- One attempt of `(REF|COD|SKU)[:.]\s*([A-Z0-9\-\.]+)` (IGNORECASE) anchored
at the start of the list. -/
def prefixPatternAt (cs : List Char) : Bool :=
  match cs with
  | a :: b :: c :: sep :: rest =>
      ((ciEq a 'r' && ciEq b 'e' && ciEq c 'f') ||
       (ciEq a 'c' && ciEq b 'o' && ciEq c 'd') ||
       (ciEq a 's' && ciEq b 'k' && ciEq c 'u')) &&
      (sep = ':' || sep = '.') &&
      !((rest.dropWhile isPyWS).takeWhile isCodeClassCI).isEmpty
  | _ => false

/-- `re.search` of the prefix-code pattern. -/
def searchPrefixPattern : List Char → Bool
  | [] => false
  | c :: rest => prefixPatternAt (c :: rest) || searchPrefixPattern rest

/-- `is_product_code` (`paddle_ocr_extractor.py`, lines 295–309): a
`d+.d+.d+.d+` shape anywhere, or the whole text an `[A-Z0-9\-\.]{4,}` token,
or a `REF|COD|SKU` prefix followed by `[:.]`, whitespace and a payload. -/
def is_product_code (text : String) : Bool :=
  searchDotsPattern text.data ||
  (text.data.length ≥ 4 && text.data.all isCodeClass) ||
  searchPrefixPattern text.data

/-! ## OCR blocks and the line-band grouper -/

/-- One OCR text block, as built by `run_paddle_ocr`: recognised text, centre
coordinates and bounding-box area (coordinates modelled as integers). -/
structure Block where
  text : String
  x : Int
  y : Int
  area : Int
  deriving DecidableEq, Repr

/-- Sorting key `center[1]` (top to bottom).  Python's `sorted` is the stable
sort by this key; `List.insertionSort` is stable and structurally recursive,
hence extensionally identical to it. -/
def byY (a b : Block) : Prop := a.y ≤ b.y

/-- Sorting key `center[0]` (left to right). -/
def byX (a b : Block) : Prop := a.x ≤ b.x

/-- Sorting key `area`, descending (`sorted(..., reverse=True)`, stable). -/
def byAreaDesc (a b : Block) : Prop := b.area ≤ a.area

instance : DecidableRel byY := fun a b => inferInstanceAs (Decidable (a.y ≤ b.y))

instance : DecidableRel byX := fun a b => inferInstanceAs (Decidable (a.x ≤ b.x))

instance : DecidableRel byAreaDesc := fun a b => inferInstanceAs (Decidable (b.area ≤ a.area))

/-- The running-group loop of `group_text_blocks`: `prev` is the last block
appended (`current_group[-1]`), `cur` the current group, `acc` the finished
groups.  A block joins the current group exactly when its `y` differs from
`prev`'s by less than `d`. -/
def splitRuns (d : Int) : Block → List Block → List (List Block) → List Block →
    List (List Block)
  | _, cur, acc, [] => acc ++ [cur]
  | prev, cur, acc, b :: rest =>
      if |b.y - prev.y| < d then splitRuns d b (cur ++ [b]) acc rest
      else splitRuns d b [b] (acc ++ [cur]) rest

/-- `group_text_blocks` (`paddle_ocr_extractor.py`, lines 355–395): sort by
`y` (stable), split into runs at gaps of at least `max_distance`, then sort
each group by `x` (stable). -/
def group_text_blocks (ocr : List Block) (max_distance : Int) : List (List Block) :=
  match List.insertionSort byY ocr with
  | [] => []
  | b :: rest =>
      (splitRuns max_distance b [b] [] rest).map (List.insertionSort byX)

/-! ## Products and the record assembler -/

/-- A product record as assembled by the OCR pipeline (the JSON object built
at `paddle_ocr_extractor.py` lines 487–495 and 541–549; the base64 `imagem`
field added later by `process_image_for_products` is outside the model). -/
structure Product where
  nome : String
  descricao : String
  codigo_comercial : List String
  cores : List String
  preco : String
  pagina : Nat
  categoria : String
  deriving DecidableEq, Repr

/-- Two-digit rendering of a number below 100. -/
def pad2 (n : Nat) : String :=
  if n < 10 then "0" ++ toString n else toString n

/-- `f"R$ {price_cents / 100:.2f}".replace('.', ',')` — the OCR pipeline's
price rendering (`paddle_ocr_extractor.py` lines 507–508 and 571–572),
modelled exactly on integer cents. -/
def renderPaddlePrice (cents : Int) : String :=
  "R$ " ++ toString (cents.toNat / 100) ++ "," ++ pad2 (cents.toNat % 100)

/-- Truthiness of the `price_cents` value (`None` and `0` are falsy). -/
def centsTruthy : Option Int → Bool
  | none => false
  | some z => z ≠ 0

/-- Appending to `descricao` with a space separator, as in the source. -/
def appendDescricao (p : Product) (text : String) : Product :=
  if p.descricao ≠ "" then { p with descricao := p.descricao ++ " " ++ text }
  else { p with descricao := text }

/-- Sequentially add colours that are not yet present. -/
def addNewColors (cores : List String) (colors : List String) : List String :=
  colors.foldl (fun cs c => if cs.contains c then cs else cs ++ [c]) cores

/-- The per-block body of `extract_product_from_blocks`
(`paddle_ocr_extractor.py`, lines 555–587): skip the title text; a fresh
code-pattern match is recorded as a code and nothing else; otherwise a truthy
price (first writer) wins; otherwise colours; otherwise the text joins the
description. -/
def blockStep (title_text : String) (p : Product) (b : Block) : Product :=
  let text := pyStrip b.text
  if text = title_text then p
  else if is_product_code text && !p.codigo_comercial.contains text then
    { p with codigo_comercial := p.codigo_comercial ++ [text] }
  else
    let pr := is_price text
    if pr.1 && centsTruthy pr.2 && p.preco = "" then
      { p with preco := renderPaddlePrice (pr.2.getD 0) }
    else
      let colors := extract_colors text
      if !colors.isEmpty then { p with cores := addNewColors p.cores colors }
      else appendDescricao p text

/-- `extract_product_from_blocks` (`paddle_ocr_extractor.py`, lines 530–589). -/
def extract_product_from_blocks (blocks : List Block) (title_text : String) : Product :=
  let init : Product :=
    { nome := title_text, descricao := "", codigo_comercial := [], cores := [],
      preco := "", pagina := 1, categoria := (identify_category title_text).getD "" }
  (List.insertionSort byY blocks).foldl (blockStep title_text) init

/-! ## Line-based extraction -/

/-- The concatenated text of one line group
(`" ".join(block['text'] for block in line)`). -/
def lineText (g : List Block) : String :=
  String.intercalate " " (g.map Block.text)

/-- Whether a concatenated line text starts a new product
(`paddle_ocr_extractor.py`, line 481): a category keyword, or length `> 3`
with an upper-case first character. -/
def isLineAnchor (line_text : String) : Bool :=
  (identify_category line_text).isSome ||
  (line_text.length > 3 &&
    (match line_text.data with
     | c :: _ => c.isUpper
     | [] => false))

/-- The body applied to a non-anchor line when a product is in progress
(`paddle_ocr_extractor.py`, lines 496–521).  Unlike the block assembler, the
code and price checks both run (there is no early exit), and the description
check re-tests price/code/colours. -/
def lineBody (p : Product) (line_text : String) : Product :=
  let p :=
    if is_product_code line_text && !p.codigo_comercial.contains line_text then
      { p with codigo_comercial := p.codigo_comercial ++ [line_text] }
    else p
  let pr := is_price line_text
  let p :=
    if pr.1 && centsTruthy pr.2 && p.preco = "" then
      { p with preco := renderPaddlePrice (pr.2.getD 0) }
    else p
  let colors := extract_colors line_text
  let p := if !colors.isEmpty then { p with cores := addNewColors p.cores colors } else p
  if !pr.1 && !is_product_code line_text && colors.isEmpty then
    appendDescricao p line_text
  else p

/-- Flush the product in progress, keeping it only when its name is
non-empty. -/
def flushProduct (products : List Product) : Option Product → List Product
  | some p => if p.nome ≠ "" then products ++ [p] else products
  | none => products

/-- The fresh product started at an anchor line
(`paddle_ocr_extractor.py`, lines 487–495). -/
def newLineProduct (line_text : String) (category : Option String) : Product :=
  { nome := line_text, descricao := "", codigo_comercial := [], cores := [],
    preco := "", pagina := 1, categoria := category.getD "" }

/-- One line of `extract_products_by_lines`' main loop. -/
def lineFold (st : List Product × Option Product) (line : List Block) :
    List Product × Option Product :=
  let line_text := lineText line
  let category := identify_category line_text
  if category.isSome || isLineAnchor line_text then
    (flushProduct st.1 st.2, some (newLineProduct line_text category))
  else
    match st.2 with
    | some p => (st.1, some (lineBody p line_text))
    | none => st

/-- `extract_products_by_lines` (`paddle_ocr_extractor.py`, lines 457–527):
group into line bands at distance 100, then fold the lines into products. -/
def extract_products_by_lines (ocr : List Block) : List Product :=
  let st := (group_text_blocks ocr 100).foldl lineFold ([], none)
  flushProduct st.1 st.2

/-! ## Title-anchored clustering -/

/-- `title_candidates` (`paddle_ocr_extractor.py`, lines 411–415): the blocks
sorted by area descending (stable), keeping the first `max 1 (n / 5)`
(`max(1, int(len * 0.2))`; `int(n * 0.2) = n // 5` for every list size that
can occur). -/
def title_candidates (ocr : List Block) : List Block :=
  (List.insertionSort byAreaDesc ocr).take (max 1 (ocr.length / 5))

/-- The title filter of `cluster_blocks_into_products`
(`paddle_ocr_extractor.py`, lines 418–423): a block is a potential title when
it is a top-area candidate or names a category, and its stripped text is
longer than 3 characters. -/
def potential_titles (ocr : List Block) : List Block :=
  ocr.filter (fun b =>
    ((title_candidates ocr).contains b || (identify_category (pyStrip b.text)).isSome) &&
    (pyStrip b.text).length > 3)

/-- The per-title region products (`paddle_ocr_extractor.py`, lines 436–452):
each title owns the blocks from its `y` up to (excluding) the next title's
`y`, the last title owning everything below it. -/
def regionProducts (ocr : List Block) : List Block → List Product
  | [] => []
  | t :: rest =>
      let blocks :=
        match rest.head? with
        | some t2 => ocr.filter (fun b => t.y ≤ b.y && b.y < t2.y)
        | none => ocr.filter (fun b => t.y ≤ b.y)
      extract_product_from_blocks blocks t.text :: regionProducts ocr rest

/-- `cluster_blocks_into_products` (`paddle_ocr_extractor.py`, lines
398–454): pick potential titles; with none, fall back to
`extract_products_by_lines`; otherwise sort titles by `y` and assemble one
product per title region. -/
def cluster_blocks_into_products (ocr : List Block) : List Product :=
  let titles := potential_titles ocr
  if titles.isEmpty then extract_products_by_lines ocr
  else regionProducts ocr (List.insertionSort byY titles)

/-- The record-extraction core of `process_image_for_products`
(`paddle_ocr_extractor.py`, lines 592–633): empty OCR yields no products;
otherwise the clustering result, falling back to `extract_products_by_lines`
only when it is empty; finally the page number is stamped on every product
(the base64 page-image embedding is I/O and outside the model). -/
def process_image_for_products (ocr : List Block) (page_number : Nat) : List Product :=
  if ocr.isEmpty then []
  else
    let products := cluster_blocks_into_products ocr
    let products := if products.isEmpty then extract_products_by_lines ocr else products
    products.map (fun p => { p with pagina := page_number })

/-! ## `format_price` (`excel_fixed_columns.py`, lines 148–199) -/

/-- An openpyxl cell value as `format_price` can receive it: `None`, a number
(`num m e` denotes `m / 10^e`, covering the ints and decimal floats the
spreadsheet reader produces), or a string. -/
inductive PyVal where
  | none : PyVal
  | num : Int → Nat → PyVal
  | str : String → PyVal
  deriving DecidableEq, Repr

/-- Python truthiness of a cell value: `None`, numeric `0` and `""` are
falsy. -/
def pyFalsy : PyVal → Bool
  | .none => true
  | .num m _ => m = 0
  | .str s => s.isEmpty

/-- Decimal digit characters of a natural number. -/
def natDigits (n : Nat) : List Char := (toString n).data

/-- Python's `str()` of a numeric value `m / 10^e`: the canonical decimal
form (sign, integer digits, shortest fractional digits; integral floats are
irrelevant here because every rendering is re-parsed before use). -/
def pyNumStr (m : Int) (e : Nat) : String :=
  let n := m.natAbs
  let sign := if m < 0 then "-" else ""
  let fracPadded := List.replicate (e - (natDigits (n % 10 ^ e)).length) '0' ++
    natDigits (n % 10 ^ e)
  let frac := (fracPadded.reverse.dropWhile (· = '0')).reverse
  sign ++ toString (n / 10 ^ e) ++
    (if frac.isEmpty then "" else "." ++ String.mk frac)

/-- `str(price_value)`. -/
def pyStr : PyVal → String
  | .none => "None"
  | .num m e => pyNumStr m e
  | .str s => s

/-- `price_str.replace("R$", "")`: remove the non-overlapping occurrences of
`R$`, scanning left to right. -/
def removeRS : List Char → List Char
  | [] => []
  | [c] => [c]
  | c :: d :: rest =>
      if c = 'R' && d = '$' then removeRS rest
      else c :: removeRS (d :: rest)

/-- `price_str.replace("R$", "").replace(" ", "").strip()`. -/
def cleanPriceStr (s : String) : List Char :=
  pyStripL ((removeRS s.data).filter (fun c => c ≠ ' '))

/-- The Brazilian-format branch normalisation (`excel_fixed_columns.py`,
lines 167–172): with both `,` and `.` present drop the dots and make the
comma a dot; with only `,` make it a dot; otherwise unchanged. -/
def normalizeCleaned (cs : List Char) : List Char :=
  if cs.contains ',' && cs.contains '.' then
    (cs.filter (fun c => c ≠ '.')).map (fun c => if c = ',' then '.' else c)
  else if cs.contains ',' then cs.map (fun c => if c = ',' then '.' else c)
  else cs

/-- Full-string Python `float()` over an optional sign and a decimal body
(the subset of `float`'s grammar reachable from this code path). -/
def pyFloatFull (cs : List Char) : Option DecFrac :=
  match cs with
  | '-' :: rest => (parsePyFloat rest).map (fun v => ⟨-v.num, v.exp⟩)
  | '+' :: rest => parsePyFloat rest
  | _ => parsePyFloat cs

/-- Round half to even of `m / d` (`d > 0`) to an integer — the rounding of
Python's fixed-point `format`, on the exact value. -/
def roundHalfEven (m d : Int) : Int :=
  let q := m.fdiv d
  let r := m - q * d
  if 2 * r < d then q
  else if d < 2 * r then q + 1
  else if q % 2 = 0 then q else q + 1

/-- Group decimal digits in threes with `.` (the `,` of `f"{x:,.2f}"` after
the swap trick). -/
def group3 : List Char → List Char
  | a :: b :: c :: d :: rest => a :: b :: c :: '.' :: group3 (d :: rest)
  | l => l

/-- Thousands-grouped decimal rendering of a natural number. -/
def groupedDigits (n : Nat) : String :=
  String.mk (group3 (natDigits n).reverse).reverse

/-- `f"R$ {x:,.2f}".replace(",", "X").replace(".", ",").replace("X", ".")`:
Brazilian money rendering of an exact value (two fixed decimals, `.`
thousands grouping, `,` decimal comma). -/
def brazilFmt (v : DecFrac) : String :=
  let c := roundHalfEven (v.num * 100) (10 ^ v.exp)
  let sign := if c < 0 then "-" else ""
  let n := c.natAbs
  "R$ " ++ sign ++ groupedDigits (n / 100) ++ "," ++ pad2 (n % 100)

/-- The canonical Brazilian money string for a cents amount (used to state
round-trip properties). -/
def brazilianMoney (cents : Nat) : String :=
  "R$ " ++ groupedDigits (cents / 100) ++ "," ++ pad2 (cents % 100)

/-- `format_price` (`excel_fixed_columns.py`, lines 148–199): falsy values
render as `"R$ 0,00"`; otherwise the stringified value is cleaned,
locale-normalised and parsed as a float; on failure the first `[\d.,]+` token
(with `,` turned into `.` but dots kept) is parsed; if that also fails the
original value is echoed after `R$ `; with no numeric token at all the value
`0.0` is used. -/
def format_price (v : PyVal) : String :=
  if pyFalsy v then "R$ 0,00"
  else
    let cleaned := normalizeCleaned (cleanPriceStr (pyStr v))
    match pyFloatFull cleaned with
    | some q => brazilFmt q
    | none =>
        match searchNumGroup cleaned with
        | some tok =>
            match pyFloatFull (tok.map (fun c => if c = ',' then '.' else c)) with
            | some q => brazilFmt q
            | none => "R$ " ++ pyStr v
        | none => brazilFmt ⟨0, 0⟩

/-! ## Artifact association (`excel_fixed_columns.py`, lines 508–591) -/

/-- A product row as built by `extract_products_from_sheet`
(`excel_fixed_columns.py`, lines 131–140), restricted to the fields the
association reads; `imagem`/`image_id` are `Option`s so that `none` models a
missing dictionary key. -/
structure ExcelProduct where
  nome : String
  codigo : String
  row : Int
  imagem : Option String
  image_id : Option String
  deriving DecidableEq, Repr

/-- An extracted sheet image (`excel_fixed_columns.py`, lines 419–426). -/
structure ExcelImage where
  codigo : String
  base64 : String
  row : Int
  col : Int
  deriving DecidableEq, Repr

/-- Insert into an association list with Python-dict semantics: an existing
key keeps its position but takes the new value; a new key is appended. -/
def dictInsert {κ α : Type} [DecidableEq κ] (l : List (κ × α)) (k : κ) (v : α) :
    List (κ × α) :=
  if l.any (fun p => p.1 = k) then
    l.map (fun p => if p.1 = k then (k, v) else p)
  else l ++ [(k, v)]

/-- First value bound to a key. -/
def dictGet {κ α : Type} [DecidableEq κ] (l : List (κ × α)) (k : κ) : Option α :=
  (l.find? (fun p => p.1 = k)).map Prod.snd

/-- `images_by_code`: images keyed by their `codigo`, in dict order. -/
def imagesByCode (images : List ExcelImage) : List (String × ExcelImage) :=
  images.foldl (fun d img => dictInsert d img.codigo img) []

/-- `images_by_row`: images with positive row keyed by `(row, col)`. -/
def imagesByRow (images : List ExcelImage) : List ((Int × Int) × ExcelImage) :=
  images.foldl
    (fun d img => if img.row > 0 then dictInsert d (img.row, img.col) img else d) []

/-- The data-URI attached to a product from an image. -/
def imageURI (img : ExcelImage) : String := "data:image/png;base64," ++ img.base64

/-- First pass: exact code match against unused images
(`excel_fixed_columns.py`, lines 534–543).  The state carries the processed
products and the `used_images` set (as a list). -/
def pass1Step (ibc : List (String × ExcelImage))
    (st : List ExcelProduct × List String) (p : ExcelProduct) :
    List ExcelProduct × List String :=
  match dictGet ibc p.codigo with
  | some img =>
      if st.2.contains img.codigo then (st.1 ++ [p], st.2)
      else (st.1 ++ [{ p with imagem := some (imageURI img), image_id := some img.codigo }],
            st.2 ++ [img.codigo])
  | none => (st.1 ++ [p], st.2)

/-- Second pass: row/column match for products without an `imagem` key
(`excel_fixed_columns.py`, lines 546–560).  Products carry no `col` key, so
the lookup key is `(row, 0)`. -/
def pass2Step (ibr : List ((Int × Int) × ExcelImage))
    (st : List ExcelProduct × List String) (p : ExcelProduct) :
    List ExcelProduct × List String :=
  if p.imagem.isSome then (st.1 ++ [p], st.2)
  else if p.row > 0 then
    match dictGet ibr (p.row, 0) with
    | some img =>
        if st.2.contains img.codigo then (st.1 ++ [p], st.2)
        else (st.1 ++ [{ p with imagem := some (imageURI img), image_id := some img.codigo }],
              st.2 ++ [img.codigo])
    | none => (st.1 ++ [p], st.2)
  else (st.1 ++ [p], st.2)

/-- Third pass: first unused image whose code contains, or is contained in,
the product's code (`excel_fixed_columns.py`, lines 564–589). -/
def pass3Step (ibc : List (String × ExcelImage))
    (st : List ExcelProduct × List String) (p : ExcelProduct) :
    List ExcelProduct × List String :=
  if p.imagem.isSome then (st.1 ++ [p], st.2)
  else
    match ibc.find? (fun kv =>
        !st.2.contains kv.1 &&
        (pyContains kv.1 p.codigo || pyContains p.codigo kv.1)) with
    | some kv =>
        (st.1 ++ [{ p with imagem := some (imageURI kv.2), image_id := some kv.1 }],
         st.2 ++ [kv.1])
    | none => (st.1 ++ [p], st.2)

/-- `associate_images_with_products` (`excel_fixed_columns.py`, lines
508–591): three passes over the product list sharing one `used_images` set. -/
def associate_images_with_products (products : List ExcelProduct)
    (images : List ExcelImage) : List ExcelProduct :=
  let ibc := imagesByCode images
  let ibr := imagesByRow images
  let st1 := products.foldl (pass1Step ibc) ([], [])
  let st2 := st1.1.foldl (pass2Step ibr) ([], st1.2)
  let st3 := st2.1.foldl (pass3Step ibc) ([], st2.2)
  st3.1

/-! ## `find_image_near_cell` (`extract_image_for_product.py`, lines 5–23) -/

/-- An embedded image with its one-based anchor cell (the source reads
`img.anchor._from.row + 1` / `col + 1`) and its binary payload when one is
extractable. -/
structure AnchorImage where
  row : Int
  col : Int
  data : Option String
  deriving DecidableEq, Repr

/-- `find_image_near_cell`: the data of the first image anchored at the
target cell or exactly one row above it (same column); images whose anchor
matches but whose payload is not extractable are skipped. -/
def find_image_near_cell (images : List AnchorImage) (target_row target_col : Int) :
    Option String :=
  images.findSome? (fun img =>
    if (img.row = target_row || img.row = target_row - 1) && img.col = target_col then
      img.data
    else Option.none)

/-! ## Spec-side definitions used to compare code behaviour with the spec -/

/-- A word character for whole-word boundaries (letters and digits). -/
def isWordChar (c : Char) : Bool := c.isAlpha || c.isDigit

/-- Whether `w` occurs at the head of `l` with a word boundary after it. -/
def wholeWordAt (w l : List Char) : Bool :=
  w.isPrefixOf l &&
    (match l.drop w.length with
     | [] => true
     | d :: _ => !isWordChar d)

/-- Scan for a whole-word occurrence: `prevIsWord` tells whether the previous
character was a word character (no boundary there). -/
def wholeWordScan (w : List Char) (prevIsWord : Bool) : List Char → Bool
  | [] => false
  | c :: rest =>
      (!prevIsWord && wholeWordAt w (c :: rest)) || wholeWordScan w (isWordChar c) rest

/-- Modelled from the spec: whole-word occurrence of `w` in `s`
(case handled by the caller), the boundary being "not a letter or digit".
The spec requires colour extraction to be a whole-word match; the source has
no such notion, so this definition follows the spec's words and is compared
against the source's `extract_colors`. -/
def specWholeWordOccurs (w s : String) : Bool :=
  wholeWordScan w.data false s.data

/-- Number of valid (non-empty-name) records in a result set. -/
def validCount (ps : List Product) : Nat :=
  (ps.filter (fun p => p.nome ≠ "")).length

instance : IsTotal Block byY := ⟨fun a b => Int.le_total a.y b.y⟩

instance : IsTrans Block byY := ⟨fun _ _ _ h₁ h₂ => Int.le_trans h₁ h₂⟩

instance : IsTotal Block byX := ⟨fun a b => Int.le_total a.x b.x⟩

instance : IsTrans Block byX := ⟨fun _ _ _ h₁ h₂ => Int.le_trans h₁ h₂⟩

instance : IsTotal Block byAreaDesc := ⟨fun a b => Int.le_total b.area a.area⟩

instance : IsTrans Block byAreaDesc := ⟨fun _ _ _ h₁ h₂ => Int.le_trans h₂ h₁⟩

/-- Proximity along `y`: the next block's centre differs from the previous
one's by less than `d`. -/
def nearY (d : Int) (a b : Block) : Prop := |b.y - a.y| < d

instance (d : Int) (a b : Block) : Decidable (nearY d a b) :=
  inferInstanceAs (Decidable (|b.y - a.y| < d))

/-- Boundary relation between consecutive groups: the last member of the
earlier group and the first member of the later group are *not* within `d`
along `y` (this is what makes the split maximal). -/
def gapY (d : Int) (g₁ g₂ : List Block) : Prop :=
  ∀ a ∈ g₁.getLast?, ∀ b ∈ g₂.head?, ¬ nearY d a b

/-- The image identifiers assigned to a list of products. -/
def assignedIds (ps : List ExcelProduct) : List String :=
  ps.filterMap ExcelProduct.image_id

/-- Every association pass step either keeps the product unchanged or
attaches one fresh (unused) artifact and records it as used. -/
def StepForm (step : (List ExcelProduct × List String) → ExcelProduct →
    (List ExcelProduct × List String)) : Prop :=
  ∀ acc used p,
    step (acc, used) p = (acc ++ [p], used) ∨
    ∃ k uri, ¬ used.contains k ∧
      step (acc, used) p =
        (acc ++ [{ p with imagem := some uri, image_id := some k }], used ++ [k])

/-- The invariant carried through one association pass: the used set has no
duplicates, every identifier assigned anywhere (processed or pending) is in
the used set, and no identifier is assigned twice. -/
def PassInv (acc : List ExcelProduct) (used : List String)
    (pending : List ExcelProduct) : Prop :=
  used.Nodup ∧
  (∀ q ∈ acc ++ pending, ∀ id, q.image_id = some id → id ∈ used) ∧
  (assignedIds (acc ++ pending)).Nodup

/-! # Theorems -/

/-- C3, counterexample.  The canonical price string `"R$ 1.234,56"` parses to
123456 cents, but the OCR pipeline's own renderer
(`f"R$ {price_reais:.2f}".replace('.', ',')`) re-renders those cents as
`"R$ 1234,56"` — the thousands separator is lost, so the round trip is not
the identity. -/
theorem C3_counterexample :
    is_price "R$ 1.234,56" = (true, some 123456) ∧
    renderPaddlePrice 123456 = "R$ 1234,56" ∧
    "R$ 1234,56" ≠ "R$ 1.234,56" := by
  refine ⟨by decide, by decide, by decide⟩

/-- C3, amended.  `"R$ 1.234,56"` parses to 123456 cents; re-rendering those
cents with the row-mode formatter `format_price` reproduces the identical
visual string, while the OCR pipeline's own renderer produces
`"R$ 1234,56"` (thousands grouping lost).  For canonical strings below
`R$ 1.000,00` (no grouping needed, e.g. `"R$ 450,00"`), the OCR renderer's
round trip is the identity as well. -/
theorem C3_roundtrip_amended :
    is_price "R$ 1.234,56" = (true, some 123456) ∧
    format_price (.str "R$ 1.234,56") = "R$ 1.234,56" ∧
    renderPaddlePrice 123456 = "R$ 1234,56" ∧
    is_price "R$ 450,00" = (true, some 45000) ∧
    renderPaddlePrice 45000 = "R$ 450,00" ∧
    format_price (.str "R$ 450,00") = "R$ 450,00" := by
  refine ⟨by decide, by decide, by decide, by decide, by decide, by decide⟩

/-- C10, counterexample.  On `"abc"` every numeric parse fails — the cleaned
string has no digits at all — yet `format_price` returns `"R$ 0,00"`, not the
claimed echo `"R$ abc"`: the echo only happens when a numeric token exists
and itself fails to parse. -/
theorem C10_counterexample :
    format_price (.str "abc") = "R$ 0,00" ∧
    "R$ 0,00" ≠ "R$ " ++ pyStr (.str "abc") := by
  refine ⟨by decide, by decide⟩

/-- C10, amended.  `format_price` is total and returns:
`"R$ 0,00"` for every falsy input (`None`, numeric 0, `""`);
the Brazilian rendering (`.` thousands, `,` decimals) of any value whose
cleaned string parses as a float — in particular of any numeric input;
on parse failure, the Brazilian rendering of the first `[\d.,]+` token of the
cleaned string (`"abc 12,5 xyz"` → `"R$ 12,50"`), `"R$ 0,00"` when there is
no such token (`"abc"`), and the echo `"R$ " + str(value)` exactly when the
token itself fails to parse (`"1,2,3"` → `"R$ 1,2,3"`). -/
theorem C10_formatPrice_amended :
    (∀ v : PyVal, pyFalsy v = true → format_price v = "R$ 0,00") ∧
    (∀ v : PyVal, pyFalsy v = false →
      ∀ q, pyFloatFull (normalizeCleaned (cleanPriceStr (pyStr v))) = some q →
        format_price v = brazilFmt q) ∧
    format_price (.num 123456 2) = "R$ 1.234,56" ∧
    format_price (.num 1234 0) = "R$ 1.234,00" ∧
    format_price (.str "abc 12,5 xyz") = "R$ 12,50" ∧
    format_price (.str "abc") = "R$ 0,00" ∧
    format_price (.str "1,2,3") = "R$ " ++ pyStr (.str "1,2,3") := by
  refine ⟨?_, ?_, by decide, by decide, by decide, by decide, by decide⟩
  · intro v hv
    simp [format_price, hv]
  · intro v hv q hq
    simp [format_price, hv, hq]

/-- C7, counterexample.  An artifact anchored one row *below* the record's
row (row 6 for a record at row 5), same column, is within ±1 of the record's
row — the claim calls it a valid match — yet `find_image_near_cell` rejects
it: only the exact row and the row *above* match. -/
theorem C7_counterexample :
    find_image_near_cell [⟨6, 3, some "IMG"⟩] 5 3 = none ∧
    ((6 : Int) - 5).natAbs ≤ 1 := by
  refine ⟨by decide, by decide⟩

/-- C7, amended.  The adjacent-row association returns the payload of the
first artifact whose anchor is at the record's expected cell or exactly one
row above it in the same column (not one row below), skipping artifacts
without an extractable payload. -/
theorem C7_find_image_near_cell_amended (images : List AnchorImage) (r c : Int) :
    find_image_near_cell images r c =
      (images.find? (fun img =>
        ((img.row = r || img.row = r - 1) && img.col = c) && img.data.isSome)).bind
        AnchorImage.data := by
  induction images with
  | nil => rfl
  | cons img rest ih =>
      simp only [find_image_near_cell] at ih ⊢
      simp only [List.findSome?_cons, List.find?_cons]
      by_cases hm : ((img.row = r || img.row = r - 1) && img.col = c) = true
      · simp only [hm, if_pos]
        cases hd : img.data with
        | none => simpa [hd, hm] using ih
        | some d => simp [hd, hm]
      · simp only [Bool.not_eq_true] at hm
        simpa [hm] using ih

/-! ### Helper lemmas on strings and folds -/

/-- Accumulating fold with conditional append is filter-then-map. -/
theorem foldl_append_filter_map {α β : Type} (f : α → β) (p : α → Bool) :
    ∀ (l : List α) (acc : List β),
      l.foldl (fun acc x => if p x then acc ++ [f x] else acc) acc =
        acc ++ (l.filter p).map f := by
  intro l
  induction l with
  | nil => intro acc; simp
  | cons x xs ih =>
      intro acc
      by_cases hx : p x
      · simp [List.foldl_cons, hx, ih]
      · simp [List.foldl_cons, hx, ih]

/-- ASCII lower-casing is idempotent on characters. -/
theorem char_toLower_idem (c : Char) : c.toLower.toLower = c.toLower := by
  have key : ∀ n, n ≥ 65 → n ≤ 90 → (Char.ofNat (n + 32)).toNat = n + 32 := by
    intro n h1 h2
    have hv : (n + 32).isValidChar := Or.inl (by omega)
    simp only [Char.ofNat, hv, dif_pos, Char.ofNatAux, Char.toNat]
    rfl
  simp only [Char.toLower]
  by_cases h : c.toNat ≥ 65 ∧ c.toNat ≤ 90
  · rw [if_pos h, key c.toNat h.1 h.2, if_neg (by omega)]
  · rw [if_neg h, if_neg h]

/-- `str.lower()` is idempotent. -/
theorem pyLower_idem (s : String) : pyLower (pyLower s) = pyLower s := by
  simp only [pyLower, List.map_map]
  congr 1
  exact List.map_congr_left (fun c _ => char_toLower_idem c)

/-- C5, counterexample.  The colour lexicon entry `"preto"` does not occur as
a whole word in `"pretos"` — there is no word boundary after it — yet
`extract_colors` reports `"Preto"`: the source's matching is plain substring
containment, not whole-word. -/
theorem C5_counterexample :
    extract_colors "pretos" = ["Preto"] ∧
    "preto" ∈ COLOR_LIST ∧
    specWholeWordOccurs "preto" (pyLower "pretos") = false := by
  refine ⟨by decide, by decide, by decide⟩

/-- C5, amended.  Colour (and material) extraction is case-insensitive
substring matching against the lexicon: it returns exactly the lexicon
entries contained (anywhere, including mid-word) in the lower-cased text,
capitalised, in lexicon order; lower-casing the input does not change the
result, and `"Preto"`/`"preto"` both match. -/
theorem C5_color_matching_amended :
    (∀ text, extract_colors text =
      (COLOR_LIST.filter (fun c => pyContains (pyLower text) c)).map pyCapitalize) ∧
    (∀ text, extract_materials text =
      (MATERIAL_LIST.filter (fun c => pyContains (pyLower text) c)).map pyCapitalize) ∧
    (∀ text, extract_colors (pyLower text) = extract_colors text) ∧
    extract_colors "Preto" = ["Preto"] ∧ extract_colors "preto" = ["Preto"] := by
  refine ⟨?_, ?_, ?_, by decide, by decide⟩
  · intro text
    exact foldl_append_filter_map pyCapitalize _ COLOR_LIST []
  · intro text
    exact foldl_append_filter_map pyCapitalize _ MATERIAL_LIST []
  · intro text
    simp only [extract_colors, pyLower_idem]

/-- C2, counterexample.  `"4500"` is a bare number inside the plausible
range, so by the claim it must be classified as price; but the assembler
tests the code pattern *first* (`"4500"` also matches `[A-Z0-9\-\.]{4,}`),
records it as a commercial code and never classifies it as price. -/
theorem C2_counterexample :
    is_price "4500" = (true, some 450000) ∧
    is_product_code "4500" = true ∧
    (extract_product_from_blocks [⟨"4500", 0, 0, 1⟩] "Cadeira Alfa").preco = "" ∧
    (extract_product_from_blocks [⟨"4500", 0, 0, 1⟩] "Cadeira Alfa").codigo_comercial
      = ["4500"] := by
  refine ⟨by decide, by decide, by decide, by decide⟩

/-- C2, amended.  In the region assembler the classification order is code
*before* price: a non-title string matching the code pattern and not already
recorded becomes a code and leaves the price untouched; the price field can
change only for a string that passed the code test without being recorded as
a fresh code (and that the price classifier accepts). -/
theorem C2_code_before_price_amended :
    (∀ (title : String) (p : Product) (b : Block),
      pyStrip b.text ≠ title → is_product_code (pyStrip b.text) = true →
      p.codigo_comercial.contains (pyStrip b.text) = false →
      blockStep title p b =
        { p with codigo_comercial := p.codigo_comercial ++ [pyStrip b.text] }) ∧
    (∀ (title : String) (p : Product) (b : Block),
      (blockStep title p b).preco ≠ p.preco →
      (is_price (pyStrip b.text)).1 = true ∧
      (is_product_code (pyStrip b.text) = false ∨
        p.codigo_comercial.contains (pyStrip b.text) = true)) := by
  constructor
  · intro title p b hne hcode hfresh
    simp only [blockStep, if_neg hne, hcode, hfresh, Bool.not_false, Bool.and_self,
      if_pos]
  · intro title p b hch
    by_cases ht : pyStrip b.text = title
    · simp [blockStep, ht] at hch
    · by_cases hcode : is_product_code (pyStrip b.text) = true
      · by_cases hfresh : p.codigo_comercial.contains (pyStrip b.text) = true
        · refine ⟨?_, Or.inr hfresh⟩
          by_contra hp
          simp only [Bool.not_eq_true] at hp
          have hmem : pyStrip b.text ∈ p.codigo_comercial := by simpa using hfresh
          simp [blockStep, appendDescricao, ht, hcode, hfresh, hmem, hp] at hch
          split at hch <;> (try split at hch) <;> simp_all
        · simp only [Bool.not_eq_true] at hfresh
          have hmem : pyStrip b.text ∉ p.codigo_comercial := by simpa using hfresh
          simp [blockStep, ht, hcode, hfresh, hmem] at hch
      · simp only [Bool.not_eq_true] at hcode
        refine ⟨?_, Or.inl hcode⟩
        by_contra hp
        simp only [Bool.not_eq_true] at hp
        simp [blockStep, appendDescricao, ht, hcode, hp] at hch
        split at hch <;> (try split at hch) <;> simp_all

/-- One product is assembled per title region. -/
theorem regionProducts_length (ocr : List Block) :
    ∀ ts : List Block, (regionProducts ocr ts).length = ts.length := by
  intro ts
  induction ts with
  | nil => rfl
  | cons t rest ih => simp [regionProducts, ih]

/-- C1, counterexample.  On this page the title-based clustering assembles
one valid record while the line-based strategy assembles two, yet the driver
returns the clustering result: it never runs both strategies and compares
valid-record counts, it only falls back when clustering returns nothing. -/
theorem C1_counterexample :
    validCount
      (process_image_for_products
        [⟨"Mesa grande", 10, 0, 900⟩, ⟨"Xyzabc qrs", 10, 200, 10⟩] 1) = 1 ∧
    validCount
      (extract_products_by_lines
        [⟨"Mesa grande", 10, 0, 900⟩, ⟨"Xyzabc qrs", 10, 200, 10⟩]) = 2 := by
  refine ⟨by decide, by decide⟩

/-- C1, amended.  The driver performs no two-strategy arbitration: it always
returns the title-based clustering result (which itself falls back to the
line-based extraction only when no titles are found); the driver's own
fallback to `extract_products_by_lines` is dead code, because the clustering
result is empty only when the line-based extraction is also empty. -/
theorem C1_no_arbitration_amended (ocr : List Block) (page : Nat) :
    process_image_for_products ocr page =
      (cluster_blocks_into_products ocr).map (fun p => { p with pagina := page }) := by
  unfold process_image_for_products
  by_cases hocr : ocr.isEmpty
  · have h0 : ocr = [] := List.isEmpty_iff.mp hocr
    subst h0
    rfl
  · rw [if_neg (by simpa using hocr)]
    by_cases hne : (potential_titles ocr).isEmpty
    · by_cases hp : (cluster_blocks_into_products ocr).isEmpty
      · have hcl : cluster_blocks_into_products ocr = extract_products_by_lines ocr := by
          unfold cluster_blocks_into_products
          rw [if_pos hne]
        rw [hcl] at hp ⊢
        simp only [hp, if_true]
      · simp only [Bool.not_eq_true] at hp
        simp only [hp, Bool.false_eq_true, if_false]
    · have hcl : cluster_blocks_into_products ocr =
          regionProducts ocr (List.insertionSort byY (potential_titles ocr)) := by
        unfold cluster_blocks_into_products
        rw [if_neg hne]
      have hlen : (cluster_blocks_into_products ocr).length =
          (potential_titles ocr).length := by
        rw [hcl, regionProducts_length]
        exact (List.perm_insertionSort byY (potential_titles ocr)).length_eq
      have hp : (cluster_blocks_into_products ocr).isEmpty = false := by
        rw [Bool.eq_false_iff]
        intro hz
        rw [List.isEmpty_iff_length_eq_zero, hlen] at hz
        exact absurd (List.isEmpty_iff_length_eq_zero.mpr hz) (by simpa using hne)
      simp only [hp, Bool.false_eq_true, if_false]

/-! ### Properties of the line-band grouper -/

/-- The groups produced by one `splitRuns` run concatenate to the processed
input. -/
theorem splitRuns_flatten (d : Int) :
    ∀ (rest : List Block) (prev : Block) (cur : List Block) (acc : List (List Block)),
      (splitRuns d prev cur acc rest).flatten = acc.flatten ++ cur ++ rest := by
  intro rest
  induction rest with
  | nil => intro prev cur acc; simp [splitRuns]
  | cons b bs ih =>
      intro prev cur acc
      by_cases h : |b.y - prev.y| < d
      · rw [splitRuns, if_pos h, ih]
        simp
      · rw [splitRuns, if_neg h, ih]
        simp

/-- Every group produced by `splitRuns` is non-empty and is a chain of
`y`-proximities: consecutive members differ by less than `d`. -/
theorem splitRuns_chain (d : Int) :
    ∀ (rest : List Block) (prev : Block) (cur : List Block) (acc : List (List Block)),
      cur ≠ [] → cur.getLast? = some prev → List.Chain' (nearY d) cur →
      (∀ g ∈ acc, g ≠ [] ∧ List.Chain' (nearY d) g) →
      ∀ g ∈ splitRuns d prev cur acc rest, g ≠ [] ∧ List.Chain' (nearY d) g := by
  intro rest
  induction rest with
  | nil =>
      intro prev cur acc hne hlast hchain hacc g hg
      rw [splitRuns] at hg
      rcases List.mem_append.mp hg with h | h
      · exact hacc g h
      · rw [List.mem_singleton] at h
        exact h ▸ ⟨hne, hchain⟩
  | cons b bs ih =>
      intro prev cur acc hne hlast hchain hacc g hg
      rw [splitRuns] at hg
      by_cases h : |b.y - prev.y| < d
      · rw [if_pos h] at hg
        refine ih b (cur ++ [b]) acc (by simp) (by simp) ?_ hacc g hg
        rw [List.chain'_append]
        refine ⟨hchain, List.chain'_singleton b, ?_⟩
        intro x hx y hy
        rw [hlast] at hx
        simp only [Option.mem_def, Option.some.injEq] at hx
        simp only [List.head?_cons, Option.mem_def, Option.some.injEq] at hy
        subst hx; subst hy
        exact h
      · rw [if_neg h] at hg
        refine ih b [b] (acc ++ [cur]) (by simp) (by simp) (List.chain'_singleton b)
          ?_ g hg
        intro g' hg'
        rcases List.mem_append.mp hg' with h' | h'
        · exact hacc g' h'
        · rw [List.mem_singleton] at h'
          exact h' ▸ ⟨hne, hchain⟩

/-- Consecutive groups produced by `splitRuns` are separated by a `y` gap of
at least `d`. -/
theorem splitRuns_boundary (d : Int) :
    ∀ (rest : List Block) (prev : Block) (cur : List Block) (acc : List (List Block)),
      cur ≠ [] → cur.getLast? = some prev →
      List.Chain' (gapY d) (acc ++ [cur]) →
      List.Chain' (gapY d) (splitRuns d prev cur acc rest) := by
  intro rest
  induction rest with
  | nil =>
      intro prev cur acc _ _ hch
      rw [splitRuns]
      exact hch
  | cons b bs ih =>
      intro prev cur acc hne hlast hch
      rw [splitRuns]
      by_cases h : |b.y - prev.y| < d
      · rw [if_pos h]
        refine ih b (cur ++ [b]) acc (by simp) (by simp [List.getLast?_concat]) ?_
        rw [List.chain'_append] at hch ⊢
        refine ⟨hch.1, List.chain'_singleton _, ?_⟩
        intro x hx y hy
        rw [List.head?_cons, Option.mem_def, Option.some.injEq] at hy
        subst hy
        have hgap := hch.2.2 x hx cur (by simp)
        intro a ha z hz
        refine hgap a ha z ?_
        cases cur with
        | nil => exact absurd rfl hne
        | cons c cs => simpa using hz
      · rw [if_neg h]
        refine ih b [b] (acc ++ [cur]) (by simp) (by simp) ?_
        rw [List.chain'_append]
        refine ⟨hch, List.chain'_singleton _, ?_⟩
        intro x hx y hy
        rw [List.getLast?_concat, Option.mem_def, Option.some.injEq] at hx
        rw [List.head?_cons, Option.mem_def, Option.some.injEq] at hy
        subst hx
        subst hy
        intro a ha z hz
        rw [hlast, Option.mem_def, Option.some.injEq] at ha
        rw [List.head?_cons, Option.mem_def, Option.some.injEq] at hz
        subst ha
        subst hz
        exact h

/-- Flattening after sorting each group is a permutation of flattening. -/
theorem flatten_map_insertionSort_perm (pre : List (List Block)) :
    (pre.map (List.insertionSort byX)).flatten.Perm pre.flatten := by
  induction pre with
  | nil => exact List.Perm.refl _
  | cons g gs ih =>
      simp only [List.map_cons, List.flatten_cons]
      exact (List.perm_insertionSort byX g).append ih

/-- C4, counterexample.  With threshold 100 and blocks at `y` 0, 60, 120 the
grouper chains them into a single group although the first and last member
are 120 > 100 apart along `y`: members of one group are *not* mutually
within `d`. -/
theorem C4_counterexample :
    group_text_blocks
      [⟨"a", 0, 0, 1⟩, ⟨"b", 0, 60, 1⟩, ⟨"c", 0, 120, 1⟩] 100 =
      [[⟨"a", 0, 0, 1⟩, ⟨"b", 0, 60, 1⟩, ⟨"c", 0, 120, 1⟩]] ∧
    ¬ nearY 100 (⟨"a", 0, 0, 1⟩ : Block) ⟨"c", 0, 120, 1⟩ := by
  refine ⟨by decide, by decide⟩

/-- C4, amended.  For every input and threshold `d` the grouper partitions
the input (the groups flatten to a permutation of it); each group is
non-empty and sorted by `x`; and the groups are exactly the `x`-sorts of the
maximal runs of the `y`-sorted input in which each member's `y` differs from
the *previous member's* by less than `d` (a chain, not a mutual bound), with
consecutive runs separated by a gap of at least `d`.  Empty input yields
empty output and a single element yields one singleton group. -/
theorem C4_grouper_amended (d : Int) (ocr : List Block) :
    (group_text_blocks [] d = [] ∧ ∀ b : Block, group_text_blocks [b] d = [[b]]) ∧
    (group_text_blocks ocr d).flatten.Perm ocr ∧
    (∀ g ∈ group_text_blocks ocr d, g ≠ [] ∧ g.Sorted byX) ∧
    ∃ pre : List (List Block),
      group_text_blocks ocr d = pre.map (List.insertionSort byX) ∧
      pre.flatten = List.insertionSort byY ocr ∧
      (∀ g ∈ pre, g ≠ [] ∧ List.Chain' (nearY d) g) ∧
      List.Chain' (gapY d) pre := by
  refine ⟨⟨rfl, fun b => rfl⟩, ?_⟩
  cases hs : List.insertionSort byY ocr with
  | nil =>
      have hocr : ocr = [] := by
        have := (List.perm_insertionSort byY ocr).symm
        rw [hs] at this
        exact this.symm.nil_eq.symm
      subst hocr
      refine ⟨by simp [group_text_blocks], by simp [group_text_blocks], [], ?_⟩
      simp [group_text_blocks]
  | cons b rest =>
      have hgtb : group_text_blocks ocr d =
          (splitRuns d b [b] [] rest).map (List.insertionSort byX) := by
        unfold group_text_blocks
        rw [hs]
      have hflat : (splitRuns d b [b] [] rest).flatten = b :: rest := by
        rw [splitRuns_flatten]
        simp
      have hchain : ∀ g ∈ splitRuns d b [b] [] rest,
          g ≠ [] ∧ List.Chain' (nearY d) g := by
        refine splitRuns_chain d rest b [b] [] (by simp) (by simp)
          (List.chain'_singleton b) (by simp)
      refine ⟨?_, ?_, splitRuns d b [b] [] rest, hgtb, hflat, hchain, ?_⟩
      · rw [hgtb]
        refine (flatten_map_insertionSort_perm _).trans ?_
        rw [hflat, ← hs]
        exact List.perm_insertionSort byY ocr
      · intro g hg
        rw [hgtb] at hg
        rcases List.mem_map.mp hg with ⟨g', hg', rfl⟩
        have hne := (hchain g' hg').1
        constructor
        · intro hnil
          have := List.length_insertionSort byX g'
          rw [hnil] at this
          exact hne (List.length_eq_zero.mp this.symm)
        · exact List.sorted_insertionSort byX g'
      · exact splitRuns_boundary d rest b [b] [] (by simp) (by simp)
          (by simp)

/-! ### Anchors and record counts -/

/-- A successful `findSome?` hits some list element. -/
theorem findSome?_isSome_exists {α β : Type} (f : α → Option β) :
    ∀ l : List α, (l.findSome? f).isSome → ∃ a ∈ l, (f a).isSome := by
  intro l
  induction l with
  | nil => intro h; simp at h
  | cons a as ih =>
      intro h
      rw [List.findSome?_cons] at h
      cases hfa : f a with
      | some b => exact ⟨a, List.mem_cons_self a as, by simp [hfa]⟩
      | none =>
          rw [hfa] at h
          rcases ih h with ⟨x, hx, hfx⟩
          exact ⟨x, List.mem_cons_of_mem a hx, hfx⟩

/-- A text that names a category keyword is longer than 3 characters: every
keyword of the lexicon has at least 4 characters and occurs inside the
(length-preserving) lower-cased text. -/
theorem identify_category_length {t : String} (h : (identify_category t).isSome) :
    t.length > 3 := by
  rcases findSome?_isSome_exists _ CATEGORY_INDICATORS h with ⟨kv, hkv, hf⟩
  by_cases hc : pyContains (pyLower t) kv.1 = true
  · have hinf : kv.1.data <:+: (pyLower t).data := of_decide_eq_true hc
    have hlen : kv.1.data.length ≤ (pyLower t).data.length := hinf.length_le
    have hall : ∀ kv ∈ CATEGORY_INDICATORS, 4 ≤ kv.1.data.length := by decide
    have h4 := hall kv hkv
    have hmap : (pyLower t).data.length = t.data.length := by
      show (t.data.map Char.toLower).length = t.data.length
      exact List.length_map t.data Char.toLower
    show 3 < t.data.length
    omega
  · rw [Bool.not_eq_true] at hc
    simp [hc] at hf

/-- An anchor line's text is non-empty. -/
theorem isLineAnchor_ne_empty {lt : String} (h : isLineAnchor lt = true) : lt ≠ "" := by
  intro he
  subst he
  have : isLineAnchor "" = false := by decide
  rw [this] at h
  exact Bool.false_ne_true h

/-- `lineBody` never touches the product's name. -/
theorem lineBody_nome (p : Product) (lt : String) : (lineBody p lt).nome = p.nome := by
  simp only [lineBody, appendDescricao]
  repeat' split
  all_goals rfl

/-- `blockStep` never touches the product's name. -/
theorem blockStep_nome (title : String) (p : Product) (b : Block) :
    (blockStep title p b).nome = p.nome := by
  simp only [blockStep, appendDescricao]
  repeat' split
  all_goals rfl

/-- A fold whose step preserves the name preserves the name. -/
theorem foldl_nome (f : Product → Block → Product)
    (hf : ∀ p b, (f p b).nome = p.nome) :
    ∀ (l : List Block) (p : Product), (l.foldl f p).nome = p.nome := by
  intro l
  induction l with
  | nil => intro p; rfl
  | cons b bs ih => intro p; rw [List.foldl_cons, ih, hf]

/-- The assembled record's name is the anchor's text. -/
theorem extract_product_from_blocks_nome (blocks : List Block) (title : String) :
    (extract_product_from_blocks blocks title).nome = title := by
  unfold extract_product_from_blocks
  rw [foldl_nome (blockStep title) (blockStep_nome title)]

/-- One record per title, named by the title's raw text, in title order. -/
theorem regionProducts_map_nome (ocr : List Block) :
    ∀ ts : List Block, (regionProducts ocr ts).map Product.nome = ts.map Block.text := by
  intro ts
  induction ts with
  | nil => rfl
  | cons t rest ih => simp [regionProducts, extract_product_from_blocks_nome, ih]

/-- The anchor test of `extract_products_by_lines`' loop
(`category or (len > 3 and upper)`) is exactly `isLineAnchor`. -/
theorem lineFold_cond (lt : String) :
    ((identify_category lt).isSome || isLineAnchor lt) = isLineAnchor lt := by
  unfold isLineAnchor
  cases h : (identify_category lt).isSome <;> simp [h]

/-- The names of the records produced by the line-based fold are exactly the
anchor lines' texts, in order, appended to the names already flushed. -/
theorem lineFold_names :
    ∀ (gs : List (List Block)) (products : List Product) (current : Option Product),
      (∀ p, current = some p → p.nome ≠ "") →
      (flushProduct (gs.foldl lineFold (products, current)).1
          (gs.foldl lineFold (products, current)).2).map Product.nome =
        (flushProduct products current).map Product.nome ++
          (gs.map lineText).filter isLineAnchor := by
  intro gs
  induction gs with
  | nil =>
      intro products current hcur
      simp
  | cons g gs ih =>
      intro products current hcur
      rw [List.foldl_cons]
      by_cases ha : isLineAnchor (lineText g) = true
      · have hstep : lineFold (products, current) g =
            (flushProduct products current,
             some (newLineProduct (lineText g) (identify_category (lineText g)))) := by
          simp only [lineFold]
          rw [if_pos (by rw [lineFold_cond]; exact ha)]
        rw [hstep, ih]
        · have hne : (newLineProduct (lineText g) (identify_category (lineText g))).nome ≠ "" :=
            isLineAnchor_ne_empty ha
          have hfl : ∀ A : List Product,
              flushProduct A (some (newLineProduct (lineText g)
                (identify_category (lineText g)))) = A ++ [newLineProduct (lineText g)
                (identify_category (lineText g))] := by
            intro A
            simp [flushProduct, hne]
          rw [hfl]
          simp [List.filter_cons, ha, newLineProduct]
        · intro p hp
          rw [Option.some.injEq] at hp
          rw [← hp]
          exact isLineAnchor_ne_empty ha
      · have hcond : ((identify_category (lineText g)).isSome || isLineAnchor (lineText g))
            = false := by
          rw [lineFold_cond]
          exact Bool.not_eq_true _ |>.mp ha
        cases current with
        | none =>
            have hstep : lineFold (products, none) g = (products, none) := by
              simp only [lineFold]
              rw [if_neg (by rw [hcond]; exact Bool.false_ne_true)]
            rw [hstep, ih products none hcur]
            simp [List.filter_cons, ha]
        | some p =>
            have hstep : lineFold (products, some p) g =
                (products, some (lineBody p (lineText g))) := by
              simp only [lineFold]
              rw [if_neg (by rw [hcond]; exact Bool.false_ne_true)]
            have hpn : p.nome ≠ "" := hcur p rfl
            have hbn : (lineBody p (lineText g)).nome ≠ "" := by
              rw [lineBody_nome]; exact hpn
            rw [hstep, ih]
            · simp [flushProduct, hpn, hbn, lineBody_nome, List.filter_cons, ha]
            · intro q hq
              rw [Option.some.injEq] at hq
              rw [← hq]
              exact hbn

/-- The names of the line-mode records are exactly the anchor lines. -/
theorem extract_products_by_lines_names (ocr : List Block) :
    (extract_products_by_lines ocr).map Product.nome =
      ((group_text_blocks ocr 100).map lineText).filter isLineAnchor := by
  unfold extract_products_by_lines
  have h := lineFold_names (group_text_blocks ocr 100) [] none (by intro p hp; cases hp)
  simpa [flushProduct] using h

/-- Every line-mode record has a non-empty name. -/
theorem extract_products_by_lines_ne_empty (ocr : List Block) :
    ∀ p ∈ extract_products_by_lines ocr, p.nome ≠ "" := by
  intro p hp
  have hmem : p.nome ∈ (extract_products_by_lines ocr).map Product.nome :=
    List.mem_map_of_mem Product.nome hp
  rw [extract_products_by_lines_names] at hmem
  have := List.of_mem_filter hmem
  exact isLineAnchor_ne_empty this

/-- Potential titles have non-empty raw text. -/
theorem potential_titles_text_ne_empty (ocr : List Block) :
    ∀ b ∈ potential_titles ocr, b.text ≠ "" := by
  intro b hb he
  unfold potential_titles at hb
  have hp := List.of_mem_filter hb
  rw [Bool.and_eq_true] at hp
  have hlen : (pyStrip b.text).length > 3 := by
    have := hp.2
    simpa using this
  rw [he] at hlen
  simp [pyStrip, pyStripL, String.length] at hlen

/-- C6.  An element is a potential title (OCR-mode anchor) iff its stripped
text names a category keyword, or it is among the top-area candidates and its
stripped text is longer than 3 characters (the keyword branch implies the
length bound, every keyword having at least 4 characters); and when no
element qualifies, the fallback emits one record per line whose concatenated
text names a category or is longer than 3 characters with an upper-case first
character (`isLineAnchor`). -/
theorem C6_anchor_policy (ocr : List Block) :
    (∀ b ∈ ocr, (b ∈ potential_titles ocr ↔
      ((identify_category (pyStrip b.text)).isSome ∨
        (b ∈ title_candidates ocr ∧ (pyStrip b.text).length > 3)))) ∧
    (potential_titles ocr = [] →
      cluster_blocks_into_products ocr = extract_products_by_lines ocr ∧
      (cluster_blocks_into_products ocr).map Product.nome =
        ((group_text_blocks ocr 100).map lineText).filter isLineAnchor) := by
  constructor
  · intro b hb
    unfold potential_titles
    rw [List.mem_filter]
    constructor
    · rintro ⟨-, hp⟩
      rw [Bool.and_eq_true, Bool.or_eq_true] at hp
      rcases hp with ⟨h₁ | h₂, hlen⟩
      · right
        exact ⟨by simpa using h₁, by simpa using hlen⟩
      · left
        simpa using h₂
    · intro h
      refine ⟨hb, ?_⟩
      rw [Bool.and_eq_true, Bool.or_eq_true]
      rcases h with hcat | ⟨hmem, hlen⟩
      · exact ⟨Or.inr (by simpa using hcat),
          by simpa using identify_category_length hcat⟩
      · exact ⟨Or.inl (by simpa using hmem), by simpa using hlen⟩
  · intro hempty
    have hcl : cluster_blocks_into_products ocr = extract_products_by_lines ocr := by
      unfold cluster_blocks_into_products
      rw [hempty]
      rfl
    exact ⟨hcl, by rw [hcl]; exact extract_products_by_lines_names ocr⟩

/-- With at least one title, clustering emits exactly one record per title,
named by the title's text, in `y` order. -/
theorem cluster_names (ocr : List Block) (h : potential_titles ocr ≠ []) :
    (cluster_blocks_into_products ocr).map Product.nome =
      (List.insertionSort byY (potential_titles ocr)).map Block.text := by
  unfold cluster_blocks_into_products
  rw [if_neg (by simpa using h)]
  exact regionProducts_map_nome ocr _

/-- Every record emitted by the clustering has a non-empty name. -/
theorem cluster_ne_empty (ocr : List Block) :
    ∀ p ∈ cluster_blocks_into_products ocr, p.nome ≠ "" := by
  intro p hp
  by_cases hempty : potential_titles ocr = []
  · have hcl : cluster_blocks_into_products ocr = extract_products_by_lines ocr := by
      unfold cluster_blocks_into_products
      rw [hempty]
      rfl
    rw [hcl] at hp
    exact extract_products_by_lines_ne_empty ocr p hp
  · have hmem : p.nome ∈ (cluster_blocks_into_products ocr).map Product.nome :=
      List.mem_map_of_mem Product.nome hp
    rw [cluster_names ocr hempty] at hmem
    rcases List.mem_map.mp hmem with ⟨b, hb, hbt⟩
    rw [List.mem_insertionSort] at hb
    rw [← hbt]
    exact potential_titles_text_ne_empty ocr b hb

/-- A fold whose every step is skipped returns the initial record. -/
theorem foldl_skip (title : String) :
    ∀ (l : List Block) (p : Product),
      (∀ b ∈ l, pyStrip b.text = title) → l.foldl (blockStep title) p = p := by
  intro l
  induction l with
  | nil => intro p _; rfl
  | cons b bs ih =>
      intro p hall
      rw [List.foldl_cons]
      have hb : pyStrip b.text = title := hall b (List.mem_cons_self b bs)
      have hstep : blockStep title p b = p := by
        simp only [blockStep]
        rw [if_pos hb]
      rw [hstep]
      exact ih p (fun x hx => hall x (List.mem_cons_of_mem b hx))

/-- C8.  With at least one anchor, the clustering emits exactly one record
per anchor (its name the anchor's raw text, in anchor order), so the number
of non-empty-name records equals the number of anchors; the line mode emits
exactly one record per anchor line; every emitted record has a non-empty
name; and an anchor whose region contains nothing but the anchor text still
yields the minimal name-only record (all other fields empty/default). -/
theorem C8_records_anchors (ocr : List Block) (blocks : List Block) (title : String) :
    (potential_titles ocr ≠ [] →
      (cluster_blocks_into_products ocr).map Product.nome =
        (List.insertionSort byY (potential_titles ocr)).map Block.text ∧
      (cluster_blocks_into_products ocr).length = (potential_titles ocr).length) ∧
    (∀ p ∈ cluster_blocks_into_products ocr, p.nome ≠ "") ∧
    ((extract_products_by_lines ocr).map Product.nome =
      ((group_text_blocks ocr 100).map lineText).filter isLineAnchor) ∧
    (∀ p ∈ extract_products_by_lines ocr, p.nome ≠ "") ∧
    ((∀ b ∈ blocks, pyStrip b.text = title) →
      extract_product_from_blocks blocks title =
        { nome := title, descricao := "", codigo_comercial := [], cores := [],
          preco := "", pagina := 1,
          categoria := (identify_category title).getD "" }) := by
  refine ⟨?_, cluster_ne_empty ocr, extract_products_by_lines_names ocr,
    extract_products_by_lines_ne_empty ocr, ?_⟩
  · intro h
    refine ⟨cluster_names ocr h, ?_⟩
    have := congrArg List.length (cluster_names ocr h)
    simpa [List.length_insertionSort] using this
  · intro hall
    unfold extract_product_from_blocks
    refine foldl_skip title _ _ ?_
    intro b hb
    rw [List.mem_insertionSort] at hb
    exact hall b hb

/-! ### Artifact association invariants -/

/-- Pass 1 has the step form. -/
theorem pass1Step_form (ibc : List (String × ExcelImage)) : StepForm (pass1Step ibc) := by
  intro acc used p
  unfold pass1Step
  cases hg : dictGet ibc p.codigo with
  | none => exact Or.inl rfl
  | some img =>
      by_cases hu : used.contains img.codigo = true
      · exact Or.inl (by dsimp only; rw [if_pos hu])
      · refine Or.inr ⟨img.codigo, imageURI img, hu, ?_⟩
        dsimp only
        rw [if_neg hu]

/-- Pass 2 has the step form. -/
theorem pass2Step_form (ibr : List ((Int × Int) × ExcelImage)) : StepForm (pass2Step ibr) := by
  intro acc used p
  unfold pass2Step
  by_cases hi : p.imagem.isSome = true
  · exact Or.inl (by rw [if_pos hi])
  · rw [if_neg hi]
    by_cases hr : p.row > 0
    · rw [if_pos hr]
      cases hg : dictGet ibr (p.row, 0) with
      | none => exact Or.inl rfl
      | some img =>
          by_cases hu : used.contains img.codigo = true
          · exact Or.inl (by dsimp only; rw [if_pos hu])
          · refine Or.inr ⟨img.codigo, imageURI img, hu, ?_⟩
            dsimp only
            rw [if_neg hu]
    · exact Or.inl (by rw [if_neg hr])

/-- Pass 3 has the step form. -/
theorem pass3Step_form (ibc : List (String × ExcelImage)) : StepForm (pass3Step ibc) := by
  intro acc used p
  unfold pass3Step
  by_cases hi : p.imagem.isSome = true
  · exact Or.inl (by rw [if_pos hi])
  · rw [if_neg hi]
    cases hf : ibc.find? (fun kv =>
        !used.contains kv.1 &&
        (pyContains kv.1 p.codigo || pyContains p.codigo kv.1)) with
    | none => exact Or.inl rfl
    | some kv =>
        have hp := List.find?_some hf
        rw [Bool.and_eq_true] at hp
        refine Or.inr ⟨kv.1, imageURI kv.2, by simpa using hp.1, rfl⟩

/-- Identifiers assigned in a product list all come from some member. -/
theorem mem_assignedIds {id : String} {l : List ExcelProduct} :
    id ∈ assignedIds l ↔ ∃ q ∈ l, q.image_id = some id := by
  simp [assignedIds, List.mem_filterMap]

/-- One step of any pass preserves the invariant. -/
theorem passInv_step {step : (List ExcelProduct × List String) → ExcelProduct →
      (List ExcelProduct × List String)} (hs : StepForm step)
    (acc : List ExcelProduct) (used : List String) (pending : List ExcelProduct)
    (p : ExcelProduct) (h : PassInv acc used (p :: pending)) :
    PassInv (step (acc, used) p).1 (step (acc, used) p).2 pending := by
  obtain ⟨h1, h2, h3⟩ := h
  rcases hs acc used p with heq | ⟨k, uri, hk, heq⟩
  · rw [heq]
    refine ⟨h1, ?_, ?_⟩
    · intro q hq
      apply h2
      rw [List.append_cons]
      exact hq
    · rw [← List.append_cons]
      exact h3
  · rw [heq]
    have hknotin : k ∉ used := by simpa using hk
    set p' : ExcelProduct := { p with imagem := some uri, image_id := some k } with hp'
    refine ⟨?_, ?_, ?_⟩
    · rw [List.nodup_append]
      refine ⟨h1, List.nodup_singleton k, ?_⟩
      intro a ha hak
      rw [List.mem_singleton] at hak
      exact hknotin (hak ▸ ha)
    · intro q hq id hid
      rw [List.append_assoc, List.mem_append] at hq
      rcases hq with hq | hq
      · exact List.mem_append_left _ (h2 q (List.mem_append_left _ hq) id hid)
      · rw [List.cons_append, List.mem_cons] at hq
        rcases hq with rfl | hq
        · rw [hp'] at hid
          simp only at hid
          rw [Option.some.injEq] at hid
          subst hid
          exact List.mem_append_right _ (List.mem_singleton.mpr rfl)
        · exact List.mem_append_left _
            (h2 q (List.mem_append_right _ (List.mem_cons_of_mem p hq)) id hid)
    · have hA : assignedIds ((acc ++ [p']) ++ pending) =
          assignedIds acc ++ (k :: assignedIds pending) := by
        simp [assignedIds, hp', List.filterMap_append]
      rw [hA]
      have hAP : (assignedIds acc ++ assignedIds pending).Nodup := by
        have hsub : List.Sublist (assignedIds acc ++ assignedIds pending)
            (assignedIds (acc ++ p :: pending)) := by
          simp only [assignedIds, List.filterMap_append, List.filterMap_cons]
          cases hpi : p.image_id with
          | none => simp
          | some j =>
              exact List.Sublist.append_left (List.sublist_cons_self j _) _
        exact hsub.nodup h3
      have hkA : k ∉ assignedIds acc := by
        intro hmem
        rcases mem_assignedIds.mp hmem with ⟨q, hq, hqid⟩
        exact hknotin (h2 q (List.mem_append_left _ hq) k hqid)
      have hkP : k ∉ assignedIds pending := by
        intro hmem
        rcases mem_assignedIds.mp hmem with ⟨q, hq, hqid⟩
        exact hknotin
          (h2 q (List.mem_append_right _ (List.mem_cons_of_mem p hq)) k hqid)
      rw [List.nodup_middle]
      rw [List.nodup_cons]
      refine ⟨?_, hAP⟩
      rw [List.mem_append]
      rintro (hc | hc)
      · exact hkA hc
      · exact hkP hc

/-- A whole pass preserves the invariant. -/
theorem passInv_fold {step : (List ExcelProduct × List String) → ExcelProduct →
      (List ExcelProduct × List String)} (hs : StepForm step) :
    ∀ (pending : List ExcelProduct) (acc : List ExcelProduct) (used : List String),
      PassInv acc used pending →
      PassInv (pending.foldl step (acc, used)).1 (pending.foldl step (acc, used)).2 [] := by
  intro pending
  induction pending with
  | nil =>
      intro acc used h
      exact h
  | cons p ps ih =>
      intro acc used h
      rw [List.foldl_cons]
      have h' := passInv_step hs acc used ps p h
      cases hst : step (acc, used) p with
      | mk acc' used' =>
          rw [hst] at h'
          exact ih acc' used' h'

/-- The invariant at the end of a pass restarts the next pass. -/
theorem passInv_restart {acc : List ExcelProduct} {used : List String}
    (h : PassInv acc used []) : PassInv [] used acc := by
  obtain ⟨h1, h2, h3⟩ := h
  refine ⟨h1, ?_, ?_⟩
  · intro q hq
    exact h2 q (by simpa using hq)
  · simpa using h3

/-- No pass ever assigns the same artifact identifier twice: the assigned
identifiers of the association output are pairwise distinct. -/
theorem associate_assignedIds_nodup (products : List ExcelProduct)
    (images : List ExcelImage) (h : ∀ p ∈ products, p.image_id = none) :
    (assignedIds (associate_images_with_products products images)).Nodup := by
  have inv0 : PassInv [] [] products := by
    refine ⟨List.nodup_nil, ?_, ?_⟩
    · intro q hq id hid
      rw [List.nil_append] at hq
      rw [h q hq] at hid
      cases hid
    · rw [List.nil_append]
      have : assignedIds products = [] := by
        rw [assignedIds, List.filterMap_eq_nil_iff]
        exact h
      rw [this]
      exact List.nodup_nil
  have inv1 := passInv_fold (pass1Step_form (imagesByCode images)) products [] [] inv0
  have inv2 := passInv_fold (pass2Step_form (imagesByRow images)) _ [] _
    (passInv_restart inv1)
  have inv3 := passInv_fold (pass3Step_form (imagesByCode images)) _ [] _
    (passInv_restart inv2)
  have := inv3.2.2
  simpa [associate_images_with_products] using this

/-- A pair found in a dict after insertion is an old pair or the new one. -/
theorem dictInsert_mem {κ α : Type} [DecidableEq κ] {l : List (κ × α)} {k : κ}
    {v : α} {pr : κ × α} (h : pr ∈ dictInsert l k v) : pr ∈ l ∨ pr = (k, v) := by
  unfold dictInsert at h
  by_cases hany : l.any (fun p => p.1 = k) = true
  · rw [if_pos hany] at h
    rcases List.mem_map.mp h with ⟨q, hq, hqe⟩
    by_cases hqk : q.1 = k
    · rw [if_pos hqk] at hqe
      exact Or.inr hqe.symm
    · rw [if_neg hqk] at hqe
      exact Or.inl (hqe ▸ hq)
  · rw [if_neg hany] at h
    rcases List.mem_append.mp h with h' | h'
    · exact Or.inl h'
    · exact Or.inr (List.mem_singleton.mp h')

/-- Key membership after a dict insertion. -/
theorem dictInsert_key {κ α : Type} [DecidableEq κ] (l : List (κ × α)) (k' : κ)
    (v : α) (k : κ) :
    (∃ pr ∈ dictInsert l k' v, pr.1 = k) ↔ (∃ pr ∈ l, pr.1 = k) ∨ k = k' := by
  constructor
  · rintro ⟨pr, hpr, hk⟩
    rcases dictInsert_mem hpr with h | h
    · exact Or.inl ⟨pr, h, hk⟩
    · right
      rw [h] at hk
      exact hk.symm
  · rintro (⟨pr, hpr, hk⟩ | rfl)
    · unfold dictInsert
      by_cases hany : l.any (fun p => p.1 = k') = true
      · rw [if_pos hany]
        by_cases hkk : pr.1 = k'
        · exact ⟨(k', v), List.mem_map.mpr ⟨pr, hpr, by rw [if_pos hkk]⟩,
            hkk.symm.trans hk⟩
        · exact ⟨pr, List.mem_map.mpr ⟨pr, hpr, by rw [if_neg hkk]⟩, hk⟩
      · rw [if_neg hany]
        exact ⟨pr, List.mem_append_left _ hpr, hk⟩
    · unfold dictInsert
      by_cases hany : l.any (fun p => p.1 = k) = true
      · rw [if_pos hany]
        rw [List.any_eq_true] at hany
        rcases hany with ⟨q, hq, hqk⟩
        rw [decide_eq_true_eq] at hqk
        exact ⟨(k, v), List.mem_map.mpr ⟨q, hq, by rw [if_pos hqk]⟩, rfl⟩
      · rw [if_neg hany]
        exact ⟨(k, v), List.mem_append_right _ (List.mem_singleton.mpr rfl), rfl⟩

/-- In `images_by_code` every value carries its key as its code. -/
theorem imagesByCode_pairs (images : List ExcelImage) :
    ∀ pr ∈ imagesByCode images, pr.2.codigo = pr.1 := by
  unfold imagesByCode
  suffices h : ∀ (d : List (String × ExcelImage)),
      (∀ pr ∈ d, pr.2.codigo = pr.1) →
      ∀ pr ∈ images.foldl (fun d img => dictInsert d img.codigo img) d,
        pr.2.codigo = pr.1 by
    exact h [] (by intro pr hpr; cases hpr)
  induction images with
  | nil =>
      intro d hd pr hpr
      exact hd pr hpr
  | cons img rest ih =>
      intro d hd pr hpr
      rw [List.foldl_cons] at hpr
      refine ih (dictInsert d img.codigo img) ?_ pr hpr
      intro q hq
      rcases dictInsert_mem hq with h | h
      · exact hd q h
      · rw [h]

/-- `images_by_code` has an entry for a key iff some image carries that
code. -/
theorem imagesByCode_key (images : List ExcelImage) (k : String) :
    (∃ pr ∈ imagesByCode images, pr.1 = k) ↔ k ∈ images.map ExcelImage.codigo := by
  unfold imagesByCode
  suffices h : ∀ (d : List (String × ExcelImage)),
      (∃ pr ∈ images.foldl (fun d img => dictInsert d img.codigo img) d, pr.1 = k) ↔
        (∃ pr ∈ d, pr.1 = k) ∨ k ∈ images.map ExcelImage.codigo by
    rw [h []]
    simp
  induction images with
  | nil =>
      intro d
      simp
  | cons img rest ih =>
      intro d
      rw [List.foldl_cons, ih (dictInsert d img.codigo img), dictInsert_key]
      rw [List.map_cons, List.mem_cons]
      rw [or_assoc]

/-- A successful `dictGet` returns a stored pair. -/
theorem dictGet_mem {κ α : Type} [DecidableEq κ] {l : List (κ × α)} {k : κ} {v : α}
    (h : dictGet l k = some v) : (k, v) ∈ l := by
  unfold dictGet at h
  cases hf : l.find? (fun p => p.1 = k) with
  | none => rw [hf] at h; cases h
  | some pr =>
      rw [hf] at h
      simp only [Option.map_some'] at h
      have hm := List.mem_of_find?_eq_some hf
      have hk := List.find?_some hf
      rw [decide_eq_true_eq] at hk
      have : (k, v) = pr := by
        rcases pr with ⟨k', v'⟩
        simp only at hk h
        injection h with hv
        rw [hk, hv]
      rw [this]
      exact hm

/-- `dictGet` succeeds exactly on stored keys. -/
theorem dictGet_isSome {κ α : Type} [DecidableEq κ] (l : List (κ × α)) (k : κ) :
    (dictGet l k).isSome ↔ (∃ pr ∈ l, pr.1 = k) := by
  unfold dictGet
  simp only [Option.isSome_map']
  rw [List.find?_isSome]
  constructor
  · rintro ⟨pr, hpr, hk⟩
    rw [decide_eq_true_eq] at hk
    exact ⟨pr, hpr, hk⟩
  · rintro ⟨pr, hpr, hk⟩
    exact ⟨pr, hpr, by rw [decide_eq_true_eq]; exact hk⟩

/-- When every pending product's code has an image and no code repeats,
pass 1 attaches to every product the artifact with its own code. -/
theorem pass1_all_match (images : List ExcelImage) :
    ∀ (pending acc : List ExcelProduct),
      (∀ p ∈ acc, p.image_id = some p.codigo ∧ p.imagem.isSome) →
      ((acc ++ pending).map ExcelProduct.codigo).Nodup →
      (∀ p ∈ pending, p.codigo ∈ images.map ExcelImage.codigo) →
      (∀ p ∈ pending, p.imagem.isSome) →
      ∀ q ∈ (pending.foldl (pass1Step (imagesByCode images))
        (acc, acc.map ExcelProduct.codigo)).1,
        q.image_id = some q.codigo ∧ q.imagem.isSome := by
  intro pending
  induction pending with
  | nil =>
      intro acc hacc _ _ _ q hq
      exact hacc q hq
  | cons p ps ih =>
      intro acc hacc hnodup hin hsome
      rw [List.foldl_cons]
      have hkey : (dictGet (imagesByCode images) p.codigo).isSome := by
        rw [dictGet_isSome, imagesByCode_key]
        exact hin p (List.mem_cons_self p ps)
      rcases Option.isSome_iff_exists.mp hkey with ⟨img, himg⟩
      have himgc : img.codigo = p.codigo := by
        have hpair := dictGet_mem himg
        have := imagesByCode_pairs images (p.codigo, img) hpair
        exact this
      have hfresh : ¬ (acc.map ExcelProduct.codigo).contains img.codigo = true := by
        rw [himgc]
        intro hc
        have hmem : p.codigo ∈ acc.map ExcelProduct.codigo := by simpa using hc
        have hsplit : ((acc ++ p :: ps).map ExcelProduct.codigo) =
            acc.map ExcelProduct.codigo ++ p.codigo :: ps.map ExcelProduct.codigo := by
          simp
        rw [hsplit] at hnodup
        rcases List.nodup_append.mp hnodup with ⟨-, -, hdisj⟩
        exact hdisj hmem (List.mem_cons_self _ _)
      have hstep : pass1Step (imagesByCode images) (acc, acc.map ExcelProduct.codigo) p =
          (acc ++ [{ p with imagem := some (imageURI img), image_id := some img.codigo }],
           acc.map ExcelProduct.codigo ++ [img.codigo]) := by
        unfold pass1Step
        rw [himg]
        dsimp only
        rw [if_neg hfresh]
      rw [hstep]
      set p' : ExcelProduct :=
        { p with imagem := some (imageURI img), image_id := some img.codigo } with hp'
      have hmapc : (acc ++ [p']).map ExcelProduct.codigo =
          acc.map ExcelProduct.codigo ++ [img.codigo] := by
        rw [List.map_append]
        simp [hp', himgc]
      rw [← hmapc]
      refine ih (acc ++ [p']) ?_ ?_ ?_ ?_
      · intro q hq
        rcases List.mem_append.mp hq with h | h
        · exact hacc q h
        · rw [List.mem_singleton] at h
          subst h
          refine ⟨?_, by simp [hp']⟩

          simp [hp', himgc]
      · have : ((acc ++ [p']) ++ ps).map ExcelProduct.codigo =
            ((acc ++ p :: ps).map ExcelProduct.codigo) := by
          simp [hp']
        rw [this]
        exact hnodup
      · intro q hq
        exact hin q (List.mem_cons_of_mem p hq)
      · intro q hq
        exact hsome q (List.mem_cons_of_mem p hq)

/-- Pass 2 leaves products that already hold an image untouched. -/
theorem pass2_skip (ibr : List ((Int × Int) × ExcelImage)) :
    ∀ (pending acc : List ExcelProduct) (used : List String),
      (∀ p ∈ pending, p.imagem.isSome) →
      pending.foldl (pass2Step ibr) (acc, used) = (acc ++ pending, used) := by
  intro pending
  induction pending with
  | nil => intro acc used _; simp
  | cons p ps ih =>
      intro acc used hsome
      rw [List.foldl_cons]
      have hstep : pass2Step ibr (acc, used) p = (acc ++ [p], used) := by
        unfold pass2Step
        rw [if_pos (hsome p (List.mem_cons_self p ps))]
      rw [hstep, ih (acc ++ [p]) used (fun q hq => hsome q (List.mem_cons_of_mem p hq))]
      simp

/-- Pass 3 leaves products that already hold an image untouched. -/
theorem pass3_skip (ibc : List (String × ExcelImage)) :
    ∀ (pending acc : List ExcelProduct) (used : List String),
      (∀ p ∈ pending, p.imagem.isSome) →
      pending.foldl (pass3Step ibc) (acc, used) = (acc ++ pending, used) := by
  intro pending
  induction pending with
  | nil => intro acc used _; simp
  | cons p ps ih =>
      intro acc used hsome
      rw [List.foldl_cons]
      have hstep : pass3Step ibc (acc, used) p = (acc ++ [p], used) := by
        unfold pass3Step
        rw [if_pos (hsome p (List.mem_cons_self p ps))]
      rw [hstep, ih (acc ++ [p]) used (fun q hq => hsome q (List.mem_cons_of_mem p hq))]
      simp

/-- C9.  Artifact association never reuses an artifact: the identifiers
assigned across all three passes are pairwise distinct (an artifact is
consumed by at most one record, and once consumed it is skipped by every
later pass because the shared `used_images` set is checked); each record
holds at most one artifact (the single `imagem`/`image_id` slot); and in the
exact-match scenario — pairwise distinct product codes with the image codes a
permutation of them — every record receives precisely the artifact carrying
its own code. -/
theorem C9_association_invariants (products : List ExcelProduct)
    (images : List ExcelImage) :
    ((∀ p ∈ products, p.image_id = none) →
      (assignedIds (associate_images_with_products products images)).Nodup) ∧
    ((∀ p ∈ products, p.image_id = none) →
      (∀ p ∈ products, p.imagem = some "") →
      (products.map ExcelProduct.codigo).Nodup →
      (images.map ExcelImage.codigo).Perm (products.map ExcelProduct.codigo) →
      ∀ p ∈ associate_images_with_products products images,
        p.image_id = some p.codigo ∧ p.imagem.isSome) := by
  refine ⟨associate_assignedIds_nodup products images, ?_⟩
  intro hid himg hnodup hperm
  have hsome : ∀ p ∈ products, p.imagem.isSome := by
    intro p hp
    rw [himg p hp]
    rfl
  have hin : ∀ p ∈ products, p.codigo ∈ images.map ExcelImage.codigo := by
    intro p hp
    exact hperm.mem_iff.mpr (List.mem_map_of_mem ExcelProduct.codigo hp)
  have h1 := pass1_all_match images products [] (by intro q hq; cases hq)
    (by simpa using hnodup) hin hsome
  simp only [List.map_nil] at h1
  intro p hp
  unfold associate_images_with_products at hp
  dsimp only at hp
  have hsome1 : ∀ q ∈ (products.foldl (pass1Step (imagesByCode images)) ([], [])).1,
      q.imagem.isSome := by
    intro q hq
    exact (h1 q hq).2
  rw [pass2_skip (imagesByRow images) _ [] _ hsome1] at hp
  simp only [List.nil_append] at hp
  rw [pass3_skip (imagesByCode images) _ [] _ hsome1] at hp
  simp only [List.nil_append] at hp
  exact h1 p hp

/-! ### Witnesses: the hypothesised theorems instantiated at concrete inputs -/

/-- Witness for C2: a fresh code-pattern string (`"4500"`) is recorded as a
code and the price field is untouched. -/
theorem C2_code_before_price_amended_witness :
    blockStep "Mesa X" ⟨"N", "", [], [], "", 1, ""⟩ ⟨"4500", 0, 0, 1⟩ =
      { nome := "N", descricao := "", codigo_comercial := ["4500"], cores := [],
        preco := "", pagina := 1, categoria := "" } :=
  C2_code_before_price_amended.1 "Mesa X" ⟨"N", "", [], [], "", 1, ""⟩
    ⟨"4500", 0, 0, 1⟩ (by decide) (by decide) (by decide)

/-- Witness for C10: a falsy input and a parseable string input. -/
theorem C10_formatPrice_amended_witness :
    format_price PyVal.none = "R$ 0,00" ∧
    format_price (.str "12,5") = brazilFmt ⟨125, 1⟩ :=
  ⟨C10_formatPrice_amended.1 PyVal.none (by decide),
   C10_formatPrice_amended.2.1 (.str "12,5") (by decide) ⟨125, 1⟩ (by decide)⟩

/-- Witness for C4: the single chained group of the three-block page is
non-empty and `x`-sorted. -/
theorem C4_grouper_amended_witness :
    ([⟨"a", 0, 0, 1⟩, ⟨"b", 0, 60, 1⟩, ⟨"c", 0, 120, 1⟩] : List Block) ≠ [] ∧
    ([⟨"a", 0, 0, 1⟩, ⟨"b", 0, 60, 1⟩, ⟨"c", 0, 120, 1⟩] : List Block).Sorted byX :=
  (C4_grouper_amended 100 [⟨"a", 0, 0, 1⟩, ⟨"b", 0, 60, 1⟩, ⟨"c", 0, 120, 1⟩]).2.2.1
    [⟨"a", 0, 0, 1⟩, ⟨"b", 0, 60, 1⟩, ⟨"c", 0, 120, 1⟩] (by decide)

/-- Witness for C6: the large category-bearing block is an anchor of its
page, and a page without anchors falls back to the line-based extraction. -/
theorem C6_anchor_policy_witness :
    ((⟨"Mesa grande", 10, 0, 900⟩ : Block) ∈
        potential_titles [⟨"Mesa grande", 10, 0, 900⟩, ⟨"Xyzabc qrs", 10, 200, 10⟩] ↔
      ((identify_category (pyStrip (Block.text ⟨"Mesa grande", 10, 0, 900⟩))).isSome ∨
        ((⟨"Mesa grande", 10, 0, 900⟩ : Block) ∈
            title_candidates [⟨"Mesa grande", 10, 0, 900⟩, ⟨"Xyzabc qrs", 10, 200, 10⟩] ∧
          (pyStrip (Block.text ⟨"Mesa grande", 10, 0, 900⟩)).length > 3))) ∧
    (cluster_blocks_into_products [⟨"xy", 0, 0, 1⟩] =
        extract_products_by_lines [⟨"xy", 0, 0, 1⟩] ∧
      (cluster_blocks_into_products [⟨"xy", 0, 0, 1⟩]).map Product.nome =
        ((group_text_blocks [⟨"xy", 0, 0, 1⟩] 100).map lineText).filter isLineAnchor) :=
  ⟨(C6_anchor_policy [⟨"Mesa grande", 10, 0, 900⟩, ⟨"Xyzabc qrs", 10, 200, 10⟩]).1
      ⟨"Mesa grande", 10, 0, 900⟩ (by decide),
   (C6_anchor_policy [⟨"xy", 0, 0, 1⟩]).2 (by decide)⟩

/-- Witness for C8: one record per title on a two-anchor page, and the
minimal record for an anchor whose region holds only the anchor text. -/
theorem C8_records_anchors_witness :
    ((cluster_blocks_into_products [⟨"Sofá Lux", 0, 0, 100⟩, ⟨"Sofá Top", 0, 50, 100⟩]).map
        Product.nome =
      (List.insertionSort byY
        (potential_titles [⟨"Sofá Lux", 0, 0, 100⟩, ⟨"Sofá Top", 0, 50, 100⟩])).map
        Block.text ∧
      (cluster_blocks_into_products [⟨"Sofá Lux", 0, 0, 100⟩, ⟨"Sofá Top", 0, 50, 100⟩]).length =
        (potential_titles [⟨"Sofá Lux", 0, 0, 100⟩, ⟨"Sofá Top", 0, 50, 100⟩]).length) ∧
    extract_product_from_blocks [⟨"Sofá Novo", 0, 0, 1⟩] "Sofá Novo" =
      { nome := "Sofá Novo", descricao := "", codigo_comercial := [], cores := [],
        preco := "", pagina := 1,
        categoria := (identify_category "Sofá Novo").getD "" } :=
  ⟨(C8_records_anchors [⟨"Sofá Lux", 0, 0, 100⟩, ⟨"Sofá Top", 0, 50, 100⟩] [] "").1
      (by decide),
   (C8_records_anchors [] [⟨"Sofá Novo", 0, 0, 1⟩] "Sofá Novo").2.2.2.2 (by decide)⟩

/-- Witness for C9: two fresh products and two exact-matchable images. -/
theorem C9_association_invariants_witness :
    (assignedIds (associate_images_with_products
      [⟨"a", "A", 2, some "", none⟩, ⟨"b", "B", 3, some "", none⟩]
      [⟨"B", "bb", 3, 4⟩, ⟨"A", "aa", 2, 4⟩])).Nodup ∧
    ((⟨"a", "A", 2, some "data:image/png;base64,aa", some "A"⟩ : ExcelProduct).image_id =
        some (ExcelProduct.codigo ⟨"a", "A", 2, some "data:image/png;base64,aa", some "A"⟩) ∧
      (⟨"a", "A", 2, some "data:image/png;base64,aa", some "A"⟩ : ExcelProduct).imagem.isSome) :=
  ⟨(C9_association_invariants
      [⟨"a", "A", 2, some "", none⟩, ⟨"b", "B", 3, some "", none⟩]
      [⟨"B", "bb", 3, 4⟩, ⟨"A", "aa", 2, 4⟩]).1 (by decide),
   (C9_association_invariants
      [⟨"a", "A", 2, some "", none⟩, ⟨"b", "B", 3, some "", none⟩]
      [⟨"B", "bb", 3, 4⟩, ⟨"A", "aa", 2, 4⟩]).2 (by decide) (by decide) (by decide)
      (by decide) ⟨"a", "A", 2, some "data:image/png;base64,aa", some "A"⟩ (by decide)⟩

end Alda

